import Mathlib

/-!
Verification of the zero-trust secret-masking core of this repository.

The definitions below are shallow embeddings of:
* `detect_secret_type`, `is_sensitive_env_var`, `create_commitment` and
  `process_command` from `zero_trust_shell_complete.sh` (strings are
  embedded as `List Char`, the SHA-256 digest as an abstract
  `hash : List Char → List Char` parameter);
* `PatternDetector.detect` and `ZeroTrustProcessor.process_content` from
  `archive/documentation/SPEC.md`;
* the audit chain (`append` / `verifyIntegrity`) and `restore`, which are
  modelled from the specification because their implementation files are
  not part of the sources.
-/

namespace ZeroTrust

/-! ## Character classes used by the shell regular expressions -/

/-- `[A-Za-z0-9_-]`, the character class of Anthropic key bodies. -/
def anthChar (c : Char) : Bool :=
  c.isAlphanum || c == '_' || c == '-'

/-- `[A-Za-z0-9_]`, the character class of fine-grained GitHub token bodies. -/
def ghPatChar (c : Char) : Bool :=
  c.isAlphanum || c == '_'

/-- `[0-9A-Z]`, the character class of AWS access key bodies. -/
def awsAccessChar (c : Char) : Bool :=
  c.isDigit || c.isUpper

/-- `[A-Za-z0-9/+=]`, the character class of AWS secret keys. -/
def awsSecretChar (c : Char) : Bool :=
  c.isAlphanum || c == '/' || c == '+' || c == '='

/-- `[a-z0-9]`, the final group of Slack bot tokens. -/
def slackTailChar (c : Char) : Bool :=
  c.isDigit || (decide ('a' ≤ c) && decide (c ≤ 'z'))

/-- `[A-Za-z0-9_-]`, the character class of JWT segments. -/
def jwtChar (c : Char) : Bool :=
  c.isAlphanum || c == '_' || c == '-'

/-- `[A-Za-z0-9+/=_-]`, the character class of generic long secrets. -/
def genChar (c : Char) : Bool :=
  c.isAlphanum || c == '+' || c == '/' || c == '=' || c == '_' || c == '-'

/-! ## String literals of the shell script -/

def litSkDash : List Char := "sk-".toList
def litSkAntDash : List Char := "sk-ant-".toList
def litGhp : List Char := "ghp_".toList
def litGithubPat : List Char := "github_pat_".toList
def litAKIA : List Char := "AKIA".toList
def litXoxbDash : List Char := "xoxb-".toList
def litPostgres : List Char := "postgres://".toList
def litMysql : List Char := "mysql://".toList
def litMongodb : List Char := "mongodb://".toList
def litRedis : List Char := "redis://".toList
def litEyJ : List Char := "eyJ".toList

def tOPENAI : List Char := "OPENAI_API_KEY".toList
def tANTHROPIC : List Char := "ANTHROPIC_API_KEY".toList
def tGITHUB : List Char := "GITHUB_TOKEN".toList
def tAWS_ACCESS : List Char := "AWS_ACCESS_KEY".toList
def tAWS_SECRET : List Char := "AWS_SECRET_KEY".toList
def tSLACK : List Char := "SLACK_BOT_TOKEN".toList
def tPOSTGRES : List Char := "POSTGRESQL_CONNECTION_STRING".toList
def tMYSQL : List Char := "MYSQL_CONNECTION_STRING".toList
def tMONGODB : List Char := "MONGODB_CONNECTION_STRING".toList
def tREDIS : List Char := "REDIS_CONNECTION_STRING".toList
def tJWT : List Char := "JWT_TOKEN".toList
def tGENERIC : List Char := "GENERIC_SECRET".toList
def tSENSITIVE : List Char := "SENSITIVE_ENV_VAR".toList

/-! ## The anchored patterns of `detect_secret_type` -/

/-- `^sk-[a-zA-Z0-9]{40,}$` -/
def matchOPENAI (v : List Char) : Bool :=
  v.take 3 == litSkDash && decide (40 ≤ (v.drop 3).length)
    && (v.drop 3).all Char.isAlphanum

/-- `^sk-ant-[a-zA-Z0-9_-]{95,}$` -/
def matchANTHROPIC (v : List Char) : Bool :=
  v.take 7 == litSkAntDash && decide (95 ≤ (v.drop 7).length)
    && (v.drop 7).all anthChar

/-- `^ghp_[A-Za-z0-9]{36}$ | ^github_pat_[A-Za-z0-9_]{82}$` -/
def matchGITHUB (v : List Char) : Bool :=
  (v.take 4 == litGhp && v.length == 40 && (v.drop 4).all Char.isAlphanum)
    || (v.take 11 == litGithubPat && v.length == 93 && (v.drop 11).all ghPatChar)

/-- `^AKIA[0-9A-Z]{16}$` -/
def matchAWS_ACCESS (v : List Char) : Bool :=
  v.take 4 == litAKIA && v.length == 20 && (v.drop 4).all awsAccessChar

/-- `^[A-Za-z0-9/+=]{40}$` -/
def matchAWS_SECRET (v : List Char) : Bool :=
  v.length == 40 && v.all awsSecretChar

/-- Splits a list at every occurrence of `sep`; the separators are dropped. -/
def splitOnChar (sep : Char) : List Char → List (List Char)
  | [] => [[]]
  | c :: rest =>
    match splitOnChar sep rest with
    | [] => [[c]]
    | g :: gs => if c == sep then [] :: g :: gs else (c :: g) :: gs

/-- `^xoxb-[0-9]+-[0-9]+-[0-9]+-[a-z0-9]+$`.  Since none of the four groups
may contain `-`, the pattern holds exactly when the text after `xoxb-`
splits at `-` into four nonempty groups of the required classes. -/
def matchSLACK (v : List Char) : Bool :=
  v.take 5 == litXoxbDash &&
    (match splitOnChar '-' (v.drop 5) with
     | [d1, d2, d3, a] =>
       !d1.isEmpty && d1.all Char.isDigit && !d2.isEmpty && d2.all Char.isDigit
         && !d3.isEmpty && d3.all Char.isDigit && !a.isEmpty && a.all slackTailChar
     | _ => false)

/-- Consumes `[^bad]+` followed by the literal `bad` and returns the rest. -/
def seg (bad : Char) (s : List Char) : Option (List Char) :=
  let a := s.takeWhile (fun c => !(c == bad))
  if a.length = 0 then none
  else
    match s.drop a.length with
    | [] => none
    | _ :: r => some r

/-- `[^:]+:[^@]+@[^/]+/[^?]+`, the tail of the three `...://` database
patterns that end in a path component. -/
def dbTailFull (s : List Char) : Bool :=
  match seg ':' s with
  | none => false
  | some r1 =>
    match seg '@' r1 with
    | none => false
    | some r2 =>
      match seg '/' r2 with
      | none => false
      | some r3 =>
        match r3 with
        | [] => false
        | c :: _ => !(c == '?')

/-- `[^:]+:[^@]+@[^/]+`, the tail of the Redis pattern. -/
def dbTailRedis (s : List Char) : Bool :=
  match seg ':' s with
  | none => false
  | some r1 =>
    match seg '@' r1 with
    | none => false
    | some r2 =>
      match r2 with
      | [] => false
      | c :: _ => !(c == '/')

/-- Unanchored search for `proto` followed by the given tail pattern, as
bash `=~` performs for the connection-string patterns. -/
def dbMatch (proto : List Char) (tail : List Char → Bool) (v : List Char) : Bool :=
  (List.range (v.length + 1)).any fun i =>
    proto.isPrefixOf (v.drop i) && tail ((v.drop i).drop proto.length)

def matchPOSTGRES (v : List Char) : Bool := dbMatch litPostgres dbTailFull v
def matchMYSQL (v : List Char) : Bool := dbMatch litMysql dbTailFull v
def matchMONGODB (v : List Char) : Bool := dbMatch litMongodb dbTailFull v
def matchREDIS (v : List Char) : Bool := dbMatch litRedis dbTailRedis v

/-- `^eyJ[A-Za-z0-9_-]+\.[A-Za-z0-9_-]+\.[A-Za-z0-9_-]+$`.  The segment
class excludes `.`, so the pattern holds exactly when the value splits at
`.` into three nonempty segments, the first starting with `eyJ`. -/
def matchJWT (v : List Char) : Bool :=
  match splitOnChar '.' v with
  | [p1, p2, p3] =>
    p1.take 3 == litEyJ && decide (4 ≤ p1.length) && p1.all jwtChar
      && !p2.isEmpty && p2.all jwtChar && !p3.isEmpty && p3.all jwtChar
  | _ => false

/-- `${#value} -ge 32` together with `^[A-Za-z0-9+/=_-]+$`. -/
def matchGENERIC (v : List Char) : Bool :=
  decide (32 ≤ v.length) && v.all genChar

/-- `detect_secret_type` from `zero_trust_shell_complete.sh` (lines 35-108):
the twelve patterns are tried in order and the first matching type is
echoed; a failing function corresponds to `none`. -/
def detect_secret_type (v : List Char) : Option (List Char) :=
  if matchOPENAI v then some tOPENAI
  else if matchANTHROPIC v then some tANTHROPIC
  else if matchGITHUB v then some tGITHUB
  else if matchAWS_ACCESS v then some tAWS_ACCESS
  else if matchAWS_SECRET v then some tAWS_SECRET
  else if matchSLACK v then some tSLACK
  else if matchPOSTGRES v then some tPOSTGRES
  else if matchMYSQL v then some tMYSQL
  else if matchMONGODB v then some tMONGODB
  else if matchREDIS v then some tREDIS
  else if matchJWT v then some tJWT
  else if matchGENERIC v then some tGENERIC
  else none

/-- The pattern table of `detect_secret_type`, in source order. -/
def patternTable : List (List Char × (List Char → Bool)) :=
  [(tOPENAI, matchOPENAI), (tANTHROPIC, matchANTHROPIC),
   (tGITHUB, matchGITHUB), (tAWS_ACCESS, matchAWS_ACCESS),
   (tAWS_SECRET, matchAWS_SECRET), (tSLACK, matchSLACK),
   (tPOSTGRES, matchPOSTGRES), (tMYSQL, matchMYSQL),
   (tMONGODB, matchMONGODB), (tREDIS, matchREDIS),
   (tJWT, matchJWT), (tGENERIC, matchGENERIC)]

theorem detect_eq_find (v : List Char) :
    detect_secret_type v = (patternTable.find? (fun p => p.2 v)).map Prod.fst := by
  simp only [detect_secret_type, patternTable, List.find?]
  by_cases h1 : matchOPENAI v <;> simp [h1] <;>
  by_cases h2 : matchANTHROPIC v <;> simp [h2] <;>
  by_cases h3 : matchGITHUB v <;> simp [h3] <;>
  by_cases h4 : matchAWS_ACCESS v <;> simp [h4] <;>
  by_cases h5 : matchAWS_SECRET v <;> simp [h5] <;>
  by_cases h6 : matchSLACK v <;> simp [h6] <;>
  by_cases h7 : matchPOSTGRES v <;> simp [h7] <;>
  by_cases h8 : matchMYSQL v <;> simp [h8] <;>
  by_cases h9 : matchMONGODB v <;> simp [h9] <;>
  by_cases h10 : matchREDIS v <;> simp [h10] <;>
  by_cases h11 : matchJWT v <;> simp [h11] <;>
  by_cases h12 : matchGENERIC v <;> simp [h12]

/-! ## Substring occurrence -/

/-- `occursAt p s i` holds when `p` starts at position `i` of `s`. -/
def occursAt (p s : List Char) (i : Nat) : Bool := p.isPrefixOf (s.drop i)

/-- `containsSub p s`: `p` occurs somewhere inside `s`
(bash `[[ $s == *"$p"* ]]`). -/
def containsSub (p s : List Char) : Bool :=
  (List.range (s.length + 1)).any (occursAt p s)

/-! ## `is_sensitive_env_var` (shell lines 111-132) -/

def sensitivePatterns : List (List Char) :=
  ["API_KEY".toList, "SECRET".toList, "PASSWORD".toList, "TOKEN".toList,
   "PRIVATE_KEY".toList, "DATABASE_URL".toList, "DB_PASSWORD".toList,
   "DB_USER".toList, "DB_HOST".toList, "REDIS_URL".toList, "MONGO_URI".toList,
   "MONGODB_URI".toList, "AWS_SECRET".toList, "AWS_ACCESS".toList,
   "AZURE_CLIENT".toList, "GOOGLE_CLIENT".toList, "OAUTH".toList,
   "AUTH".toList, "PRIVATE".toList, "CREDENTIAL".toList, "CERT".toList,
   "KEY".toList, "SESSION_SECRET".toList, "ENCRYPTION_KEY".toList]

/-- `is_sensitive_env_var`: the uppercased variable name contains one of
the sensitive name patterns as a substring. -/
def is_sensitive_env_var (name : List Char) : Bool :=
  sensitivePatterns.any (fun pat => containsSub pat (name.map Char.toUpper))

/-! ## `create_commitment` (shell lines 135-164)

The SHA-256 hex digest (`shasum -a 256 | cut -d' ' -f1`) is an abstract
parameter `hash`; `date -u +%Y-%m-%dT%H:%M:%SZ` is `iso`, `date +%s` is
`epoch` and `$$` is `pid`. -/

structure Commitment where
  commitment_id : List Char
  variable_name : List Char
  secret_hash : List Char
  secret_type : List Char
  masked_value : List Char
  timestamp : List Char
  session_id : List Char
  shell_pid : List Char
  deriving DecidableEq, Repr

def litMaskedOpen : List Char := "<MASKED_".toList

def create_commitment (hash : List Char → List Char)
    (var_name secret_value secret_type iso epoch pid : List Char) : Commitment :=
  let secret_hash := hash secret_value
  let short_hash := secret_hash.take 8
  let commitment_data := var_name ++ ':' :: (secret_hash ++ ':' :: (epoch ++ ':' :: pid))
  let commitment_id := (hash commitment_data).take 16
  let masked_value := litMaskedOpen ++ secret_type ++ '_' :: (short_hash ++ ['>'])
  { commitment_id := commitment_id, variable_name := var_name,
    secret_hash := secret_hash, secret_type := secret_type,
    masked_value := masked_value, timestamp := iso,
    session_id := pid, shell_pid := pid }

/-- The eight serialized fields of a commitment, in source order. -/
def commitmentFields (c : Commitment) : List (List Char) :=
  [c.commitment_id, c.variable_name, c.secret_hash, c.secret_type,
   c.masked_value, c.timestamp, c.session_id, c.shell_pid]

/-- One `"key": "value"` item of the commitment JSON object. -/
def jsonKV (k v : List Char) : List Char :=
  '"' :: (k ++ '"' :: ':' :: ' ' :: '"' :: (v ++ ['"']))

def kCommitmentId : List Char := "commitment_id".toList
def kVariableName : List Char := "variable_name".toList
def kSecretHash : List Char := "secret_hash".toList
def kSecretType : List Char := "secret_type".toList
def kMaskedValue : List Char := "masked_value".toList
def kTimestamp : List Char := "timestamp".toList
def kSessionId : List Char := "session_id".toList
def kShellPid : List Char := "shell_pid".toList

/-- The serialized commitment object of shell lines 152-161 (a JSON-style
object with one field per line). -/
def serialize_commitment (c : Commitment) : List Char :=
  let ind : List Char := List.replicate 8 ' '
  let item := fun (k v : List Char) => ind ++ jsonKV k v ++ [',', '\n']
  let last := fun (k v : List Char) => ind ++ jsonKV k v ++ ['\n']
  '{' :: '\n' ::
    (item kCommitmentId c.commitment_id ++ item kVariableName c.variable_name ++
     item kSecretHash c.secret_hash ++ item kSecretType c.secret_type ++
     item kMaskedValue c.masked_value ++ item kTimestamp c.timestamp ++
     item kSessionId c.session_id ++ last kShellPid c.shell_pid ++
     (List.replicate 4 ' ' ++ ['}']))

/-! ## Claim C6: the commitment field formulas -/

/-- C6: for every secret a commitment is created from,
`secretHash = Hash(rawValue)`; `commitmentId` is the hash of the joined
name, secret hash, timestamp (epoch seconds) and process id, truncated to
16 hex characters; and `maskedPlaceholder` is `<MASKED_` followed by the
secret type, `_`, the first 8 hex characters of `secretHash`, and `>`. -/
theorem c6_commitment_field_formulas
    (hash : List Char → List Char) (name value stype iso epoch pid : List Char) :
    (create_commitment hash name value stype iso epoch pid).secret_hash = hash value ∧
    (create_commitment hash name value stype iso epoch pid).commitment_id =
      (hash (name ++ ':' :: (hash value ++ ':' :: (epoch ++ ':' :: pid)))).take 16 ∧
    (create_commitment hash name value stype iso epoch pid).masked_value =
      litMaskedOpen ++ stype ++ '_' :: ((hash value).take 8 ++ ['>']) :=
  ⟨rfl, rfl, rfl⟩

/-! ## Claim C9: detection priority -/

def w40 : List Char := List.replicate 40 'A'
def w32 : List Char := List.replicate 32 'a'

/-- C9: `detect_secret_type` classifies a value into at most one type —
the first matching pattern of the fixed table wins; a 40-character value
over `[A-Za-z0-9/+=]` matching no earlier pattern is `AWS_SECRET_KEY`,
and a value of length ≥ 32 over `[A-Za-z0-9+/=_-]` matching no earlier
pattern is `GENERIC_SECRET`. -/
theorem c9_detect_priority (v : List Char) :
    detect_secret_type v = (patternTable.find? (fun p => p.2 v)).map Prod.fst ∧
    (v.length = 40 → v.all awsSecretChar = true →
      matchOPENAI v = false → matchANTHROPIC v = false →
      matchGITHUB v = false → matchAWS_ACCESS v = false →
      detect_secret_type v = some tAWS_SECRET) ∧
    (32 ≤ v.length → v.all genChar = true →
      matchOPENAI v = false → matchANTHROPIC v = false →
      matchGITHUB v = false → matchAWS_ACCESS v = false →
      matchAWS_SECRET v = false → matchSLACK v = false →
      matchPOSTGRES v = false → matchMYSQL v = false →
      matchMONGODB v = false → matchREDIS v = false → matchJWT v = false →
      detect_secret_type v = some tGENERIC) := by
  refine ⟨detect_eq_find v, ?_, ?_⟩
  · intro hlen hall h1 h2 h3 h4
    have h5 : matchAWS_SECRET v = true := by
      simp [matchAWS_SECRET, hlen, hall]
    simp [detect_secret_type, h1, h2, h3, h4, h5]
  · intro hlen hall h1 h2 h3 h4 h5 h6 h7 h8 h9 h10 h11
    have h12 : matchGENERIC v = true := by
      simp [matchGENERIC, hlen, hall]
    simp [detect_secret_type, h1, h2, h3, h4, h5, h6, h7, h8, h9, h10, h11, h12]

/-- Witness for C9 at two concrete values. -/
theorem c9_detect_priority_witness :
    detect_secret_type w40 = some tAWS_SECRET ∧
    detect_secret_type w32 = some tGENERIC :=
  ⟨(c9_detect_priority w40).2.1 (by decide) (by decide) (by decide) (by decide)
      (by decide) (by decide),
   (c9_detect_priority w32).2.2 (by decide) (by decide) (by decide) (by decide)
      (by decide) (by decide) (by decide) (by decide) (by decide) (by decide)
      (by decide) (by decide) (by decide)⟩

/-! ## Environment-variable extraction (shell lines 175-189)

`grep -oE` extracts the leftmost-longest non-overlapping matches of
`\$[A-Za-z_][A-Za-z0-9_]*` resp. `\$\{[A-Za-z_][A-Za-z0-9_]*\}`; the
`sed` calls strip the `$`/`${}` decoration and `sort -u` deduplicates. -/

def varStartChar (c : Char) : Bool := c.isAlpha || c == '_'

def varChar (c : Char) : Bool := c.isAlphanum || c == '_'

/-- Names of `$NAME` references, in scan order.  The fuel argument only
bounds the recursion depth; `s.length` steps always suffice. -/
def extractDollarAux : Nat → List Char → List (List Char)
  | 0, _ => []
  | fuel + 1, s =>
    match s with
    | '$' :: d :: rest2 =>
      if varStartChar d then
        ((d :: rest2).takeWhile varChar) ::
          extractDollarAux fuel ((d :: rest2).drop ((d :: rest2).takeWhile varChar).length)
      else extractDollarAux fuel (d :: rest2)
    | _ :: rest => extractDollarAux fuel rest
    | [] => []

def extractDollar (s : List Char) : List (List Char) := extractDollarAux s.length s

/-- Names of `${NAME}` references, in scan order. -/
def extractBraceAux : Nat → List Char → List (List Char)
  | 0, _ => []
  | fuel + 1, s =>
    match s with
    | '$' :: '{' :: d :: rest3 =>
      if varStartChar d then
        if (rest3.drop (rest3.takeWhile varChar).length).head? == some '}' then
          (d :: rest3.takeWhile varChar) ::
            extractBraceAux fuel (rest3.drop (rest3.takeWhile varChar).length).tail
        else extractBraceAux fuel ('{' :: d :: rest3)
      else extractBraceAux fuel ('{' :: d :: rest3)
    | _ :: rest => extractBraceAux fuel rest
    | [] => []

def extractBrace (s : List Char) : List (List Char) := extractBraceAux s.length s

def lexLe : List Char → List Char → Bool
  | [], _ => true
  | _ :: _, [] => false
  | a :: as, b :: bs => if a = b then lexLe as bs else decide (a < b)

def insertLex (x : List Char) : List (List Char) → List (List Char)
  | [] => [x]
  | y :: ys => if lexLe x y then x :: y :: ys else y :: insertLex x ys

def sortLex (l : List (List Char)) : List (List Char) := l.foldr insertLex []

def dedupAdj : List (List Char) → List (List Char)
  | [] => []
  | [x] => [x]
  | x :: y :: r => if x = y then dedupAdj (y :: r) else x :: dedupAdj (y :: r)

/-- `sort -u`. -/
def sortU (l : List (List Char)) : List (List Char) := dedupAdj (sortLex l)

/-! ## `process_command` (shell lines 167-246) -/

def litTrue : List Char := "true".toList

/-- The process environment, as an association list. -/
def lookupEnv (env : List (List Char × List Char)) (v : List Char) :
    Option (List Char) :=
  (env.find? (fun p => p.1 == v)).map Prod.snd

/-- Bash `${s//pat/rep}`: leftmost non-overlapping replacement, the
replacement text is not rescanned.  `s.length` fuel steps always suffice. -/
def replaceAllAux (pat rep : List Char) : Nat → List Char → List Char
  | 0, s => s
  | fuel + 1, s =>
    match s with
    | [] => []
    | c :: rest =>
      if pat.isPrefixOf (c :: rest) && !pat.isEmpty then
        rep ++ replaceAllAux pat rep fuel (rest.drop (pat.length - 1))
      else c :: replaceAllAux pat rep fuel rest

def replaceAll (pat rep s : List Char) : List Char := replaceAllAux pat rep s.length s

/-- The loop body of `process_command` (lines 192-229): state is
(modified command, commitments array, SECRET_MASKED log records). -/
def processVar (hash : List Char → List Char) (iso epoch pid enableMasking : List Char)
    (env : List (List Char × List Char))
    (acc : List Char × List Commitment × List Commitment) (var_name : List Char) :
    List Char × List Commitment × List Commitment :=
  if var_name.isEmpty then acc
  else
    match lookupEnv env var_name with
    | none => acc
    | some val =>
      if val.isEmpty then acc
      else
        match (match detect_secret_type val with
               | some t => some t
               | none => if is_sensitive_env_var var_name then some tSENSITIVE else none) with
        | none => acc
        | some stype =>
          if enableMasking == litTrue then
            let commitment := create_commitment hash var_name val stype iso epoch pid
            let escaped := '\'' :: (commitment.masked_value ++ ['\''])
            let m1 := replaceAll ('$' :: var_name) escaped acc.1
            let m2 := replaceAll ('$' :: '{' :: (var_name ++ ['}'])) escaped m1
            (m2, acc.2.1 ++ [commitment], acc.2.2 ++ [commitment])
          else acc

structure ProcessResult where
  modified_command : List Char
  commitments : List Commitment
  masked_events : List Commitment
  deriving DecidableEq, Repr

/-- The deduplicated list of referenced variable names. -/
def commandVars (command : List Char) : List (List Char) :=
  sortU (sortU (extractDollar command) ++ sortU (extractBrace command))

/-- `process_command`: extract the referenced variable names, then mask
each one that is set, non-empty and detected as secret (by value or by
sensitive name) while masking is enabled. -/
def process_command (hash : List Char → List Char) (iso epoch pid enableMasking : List Char)
    (env : List (List Char × List Char)) (command : List Char) : ProcessResult :=
  ProcessResult.mk
    (((commandVars command).foldl (processVar hash iso epoch pid enableMasking env)
        (command, [], [])).1)
    (((commandVars command).foldl (processVar hash iso epoch pid enableMasking env)
        (command, [], [])).2.1)
    (((commandVars command).foldl (processVar hash iso epoch pid enableMasking env)
        (command, [], [])).2.2)

/-! ## Claim C10: the masking switch and the set-and-non-empty guard -/

theorem processVar_id_of_not_true {hash : List Char → List Char}
    {iso epoch pid enableMasking : List Char} {env : List (List Char × List Char)}
    (hmask : enableMasking ≠ litTrue)
    (acc : List Char × List Commitment × List Commitment) (v : List Char) :
    processVar hash iso epoch pid enableMasking env acc v = acc := by
  unfold processVar
  split
  · rfl
  · split
    · rfl
    · split
      · rfl
      · split
        · rfl
        · have : (enableMasking == litTrue) = false := by
            simpa using hmask
          simp [this]

theorem foldl_processVar_id {hash : List Char → List Char}
    {iso epoch pid enableMasking : List Char} {env : List (List Char × List Char)}
    (hmask : enableMasking ≠ litTrue) :
    ∀ (vars : List (List Char)) (acc : List Char × List Commitment × List Commitment),
      vars.foldl (processVar hash iso epoch pid enableMasking env) acc = acc := by
  intro vars
  induction vars with
  | nil => intro acc; rfl
  | cons v vs ih =>
    intro acc
    simp only [List.foldl_cons, processVar_id_of_not_true hmask]
    exact ih acc

theorem foldl_processVar_env {hash : List Char → List Char}
    {iso epoch pid enableMasking : List Char} {env : List (List Char × List Char)} :
    ∀ (vars : List (List Char)) (acc : List Char × List Commitment × List Commitment),
      (∀ c ∈ acc.2.1, ∃ val, lookupEnv env c.variable_name = some val ∧ val ≠ []) →
      ∀ c ∈ (vars.foldl (processVar hash iso epoch pid enableMasking env) acc).2.1,
        ∃ val, lookupEnv env c.variable_name = some val ∧ val ≠ [] := by
  intro vars
  induction vars with
  | nil => exact fun acc h => h
  | cons v vs ih =>
    intro acc h
    refine ih _ ?_
    unfold processVar
    split
    · exact h
    · split
      · exact h
      · next val hval =>
        split
        · exact h
        · next hvalne =>
          split
          · exact h
          · next stype hstype =>
            split
            · intro c hc
              rcases List.mem_append.mp hc with hold | hnew
              · exact h c hold
              · have hc' : c = create_commitment hash v val stype iso epoch pid :=
                  List.mem_singleton.mp hnew
                subst hc'
                exact ⟨val, hval, by simpa using hvalne⟩
            · exact h

/-- C10: when the masking switch is any value other than `"true"`,
`process_command` returns every command unchanged and creates no
commitment and no SECRET_MASKED record; and every commitment it ever
creates is for a variable that is set and non-empty in the environment. -/
theorem c10_masking_switch_frame (hash : List Char → List Char)
    (iso epoch pid enableMasking : List Char) (env : List (List Char × List Char))
    (command : List Char) :
    (enableMasking ≠ litTrue →
      process_command hash iso epoch pid enableMasking env command =
        ⟨command, [], []⟩) ∧
    (∀ c ∈ (process_command hash iso epoch pid enableMasking env command).commitments,
      ∃ val, lookupEnv env c.variable_name = some val ∧ val ≠ []) := by
  constructor
  · intro hmask
    simp only [process_command, foldl_processVar_id hmask]
  · intro c hc
    exact foldl_processVar_env _ _ (by simp) c hc

def idHash : List Char → List Char := fun s => s

def wVarName : List Char := "MY_API_KEY".toList
def wEnv : List (List Char × List Char) := [(wVarName, w32)]
def wCmd : List Char := "echo $MY_API_KEY".toList
def wIso : List Char := "2025-01-01T00:00:00Z".toList
def wEpoch : List Char := "1735689600".toList
def wPid : List Char := "4242".toList
def wFalse : List Char := "false".toList

def wCommit : Commitment :=
  create_commitment idHash wVarName w32 tGENERIC wIso wEpoch wPid

/-- Witness for C10: with masking off nothing changes; with masking on,
the produced commitment's variable is set and non-empty. -/
theorem c10_masking_switch_frame_witness :
    process_command idHash wIso wEpoch wPid wFalse wEnv wCmd = ⟨wCmd, [], []⟩ ∧
    (∃ val, lookupEnv wEnv wCommit.variable_name = some val ∧ val ≠ []) :=
  ⟨(c10_masking_switch_frame idHash wIso wEpoch wPid wFalse wEnv wCmd).1 (by decide),
   (c10_masking_switch_frame idHash wIso wEpoch wPid litTrue wEnv wCmd).2
     wCommit (by
       have h : (process_command idHash wIso wEpoch wPid litTrue wEnv wCmd).commitments
           = [wCommit] := by decide
       rw [h]
       exact List.mem_singleton_self _)⟩

/-! ## Claim C1, counterexample part

Two routes break the claim.  First, an environment variable whose name
equals its own value: a 32-character value over `[A-Za-z0-9_]` is
detected as `GENERIC_SECRET`, and the serialized commitment stores the
variable name verbatim — so the `variable_name` field contains the raw
secret value.  Second, a commitment created through the
`is_sensitive_env_var` route (shell lines 204-207): the value is not
pattern-detected, so it may be any non-empty string, and a short value
such as `ENV` under the sensitive name `MY_TOKEN` is a substring of the
fixed `secret_type` text `SENSITIVE_ENV_VAR` and of the masked
placeholder `<MASKED_SENSITIVE_ENV_VAR_...>`. -/

def cxName : List Char := "AUTH_AAAAAAAAAAAAAAAAAAAAAAAAAAA".toList

def cxCmd : List Char := "echo $AUTH_AAAAAAAAAAAAAAAAAAAAAAAAAAA".toList

def cxEnvName : List Char := "MY_TOKEN".toList

def cxEnvVal : List Char := "ENV".toList

def cxEnvCmd : List Char := "echo $MY_TOKEN".toList

/-- A stand-in 64-hex digest function for the concrete counterexample runs
(the violating fields do not involve the hash at all). -/
def cxHash : List Char → List Char := fun _ => List.replicate 64 '0'

/-- C1 counterexample, both routes: a commitment created by
`process_command` for the secret value `cxName` (detected as
GENERIC_SECRET) has a serialized field — the variable name — containing
the raw secret value as a substring; and a commitment created for the
undetected value `ENV` of the sensitive-named variable `MY_TOKEN` has
its raw value as a substring of both the `secret_type` and the
`masked_value` fields, neither of which is the variable name. -/
theorem c1_counterexample :
    (detect_secret_type cxName = some tGENERIC ∧
     ∃ c ∈ (process_command cxHash wIso wEpoch wPid litTrue
         [(cxName, cxName)] cxCmd).commitments,
       ∃ f ∈ commitmentFields c, containsSub cxName f = true) ∧
    (detect_secret_type cxEnvVal = none ∧
     is_sensitive_env_var cxEnvName = true ∧
     ∃ c ∈ (process_command cxHash wIso wEpoch wPid litTrue
         [(cxEnvName, cxEnvVal)] cxEnvCmd).commitments,
       c.variable_name = cxEnvName ∧
       containsSub cxEnvVal c.secret_type = true ∧
       containsSub cxEnvVal c.masked_value = true) := by
  decide

/-! ## The redaction engine
(`ZeroTrustProcessor.process_content`, `archive/documentation/SPEC.md`)

`SecretMatch(value, start, end, confidence)` carries the secret type used
by `_generate_placeholder`; the Python `end` field is called `endPos`
because `end` is reserved in Lean. -/

structure SecretMatch where
  value : List Char
  start : Nat
  endPos : Nat
  confidence : ℚ
  secret_type : List Char
  deriving DecidableEq, Repr

def digitChar (d : Nat) : Char := Char.ofNat (48 + d)

def natCharsAux : Nat → Nat → List Char
  | 0, _ => []
  | fuel + 1, n =>
    if n < 10 then [digitChar n]
    else natCharsAux fuel (n / 10) ++ [digitChar (n % 10)]

/-- Decimal digits of `n`. -/
def natChars (n : Nat) : List Char := natCharsAux (n + 1) n

def litPlaceholderMid : List Char := "_PLACEHOLDER_".toList

/-- Modelled from the spec: `_generate_placeholder` is not given in the
sources; FR-002 fixes the format `<SECRET_TYPE_PLACEHOLDER_XXX>` with a
per-call counter making placeholders unique. -/
def mkPlaceholder (t : List Char) (k : Nat) : List Char :=
  '<' :: (t ++ litPlaceholderMid ++ natChars k ++ ['>'])

/-- One step of Python `list.sort(key=lambda x: x.start, reverse=True)`:
insertion into a list sorted by descending start offset. -/
def insertDesc (m : SecretMatch) : List SecretMatch → List SecretMatch
  | [] => [m]
  | x :: xs => if x.start ≤ m.start then m :: x :: xs else x :: insertDesc m xs

def sortDesc (l : List SecretMatch) : List SecretMatch := l.foldr insertDesc []

/-- The replacement loop of `process_content`: splice the placeholder at
the match's captured offsets and record the mapping entry; the counter
increases once per generated placeholder. -/
def redactLoop : List Char → Nat → List SecretMatch → List Char × List (List Char × List Char)
  | content, _, [] => (content, [])
  | content, k, m :: rest =>
    let p := mkPlaceholder m.secret_type k
    let r := redactLoop (content.take m.start ++ p ++ content.drop m.endPos) (k + 1) rest
    (r.1, (p, m.value) :: r.2)

/-- `process_content`'s replacement phase: sort by start offset
descending, then splice each match at its explicit offsets. -/
def redact (content : List Char) (ms : List SecretMatch) :
    List Char × List (List Char × List Char) :=
  redactLoop content 0 (sortDesc ms)

/-! ## The offset decomposition that redaction must produce -/

/-- `slice c s e` is `c[s:e]`. -/
def slice (c : List Char) (s e : Nat) : List Char := (c.drop s).take (e - s)

/-- Matches listed in ascending offset order, pairwise disjoint, with
valid offsets and values equal to the slices they cover. -/
def Chained (c : List Char) : Nat → List SecretMatch → Prop
  | _, [] => True
  | lo, m :: rest =>
    lo ≤ m.start ∧ m.start < m.endPos ∧ m.endPos ≤ c.length ∧
      m.value = slice c m.start m.endPos ∧ Chained c m.endPos rest

instance (c : List Char) : ∀ lo ms, Decidable (Chained c lo ms)
  | _, [] => .isTrue trivial
  | _, m :: rest =>
    have : Decidable (Chained c m.endPos rest) := instDecidableChained c m.endPos rest
    inferInstanceAs (Decidable (_ ∧ _ ∧ _ ∧ _ ∧ _))

/-- A set of confirmed matches: every match is non-empty, in range and
covers exactly its slice of the content, and matches are pairwise
disjoint. -/
def ValidMatches (c : List Char) (ms : List SecretMatch) : Prop :=
  (∀ m ∈ ms, m.start < m.endPos ∧ m.endPos ≤ c.length ∧
      m.value = slice c m.start m.endPos) ∧
    ms.Pairwise (fun a b => a.endPos ≤ b.start ∨ b.endPos ≤ a.start)

/-- The sanitized content spelled as an explicit interleaving: each match
replaced by its placeholder at its own captured offsets, the text between
offsets preserved.  `kc` is the counter given to the *last* match (the
first one processed in descending order). -/
def sanitOf (c : List Char) (kc : Nat) : Nat → List SecretMatch → List Char
  | prev, [] => c.drop prev
  | prev, m :: rest =>
    (c.drop prev).take (m.start - prev) ++
      mkPlaceholder m.secret_type (kc + rest.length) ++ sanitOf c kc m.endPos rest

/-- The mapping pairs in ascending offset order with the same counters. -/
def pairsOf (kc : Nat) : List SecretMatch → List (List Char × List Char)
  | [] => []
  | m :: rest =>
    (mkPlaceholder m.secret_type (kc + rest.length), m.value) :: pairsOf kc rest

def endOf : Nat → List SecretMatch → Nat
  | prev, [] => prev
  | _, m :: rest => endOf m.endPos rest

/-! ### Slice arithmetic -/

theorem length_ge_of_take_eq {c2 c : List Char} {n : Nat}
    (h : c2.take n = c.take n) (hn : n ≤ c.length) : n ≤ c2.length := by
  have := congrArg List.length h
  simp [List.length_take] at this
  omega

theorem slice_take {c : List Char} {n s e : Nat} (h : e ≤ n) :
    slice (c.take n) s e = slice c s e := by
  unfold slice
  rw [List.drop_take, List.take_take]
  congr 1
  omega

theorem slice_of_take_eq {c c2 : List Char} {n s e : Nat}
    (h : c2.take n = c.take n) (he : e ≤ n) :
    slice c2 s e = slice c s e := by
  rw [← @slice_take c2 n s e he, h, slice_take he]

theorem slice_append_left {a b : List Char} {s e : Nat} (he : e ≤ a.length) :
    slice (a ++ b) s e = slice a s e := by
  rcases Nat.le_total s a.length with hs | hs
  · unfold slice
    rw [List.drop_append_of_le_length hs]
    have hlen : e - s ≤ (a.drop s).length := by
      simp [List.length_drop]
      omega
    rw [List.take_append_of_le_length hlen]
  · have h0 : e - s = 0 := by omega
    unfold slice
    rw [h0]
    simp

/-! ### Chains of matches -/

theorem chained_le_endOf {c : List Char} :
    ∀ {ms : List SecretMatch} {prev : Nat}, Chained c prev ms → prev ≤ endOf prev ms
  | [], _, _ => Nat.le_refl _
  | m :: rest, prev, h => by
    obtain ⟨h1, h2, _, _, h5⟩ := h
    have h6 := chained_le_endOf h5
    simp only [endOf]
    omega

theorem chained_change {c c2 : List Char} {n : Nat}
    (hc : c2.take n = c.take n) (hn : n ≤ c.length) :
    ∀ {ms : List SecretMatch} {prev : Nat},
      Chained c prev ms → endOf prev ms ≤ n → Chained c2 prev ms
  | [], _, _, _ => trivial
  | m :: rest, prev, h, hend => by
    obtain ⟨h1, h2, h3, h4, h5⟩ := h
    have hend' : endOf m.endPos rest ≤ n := by simpa [endOf] using hend
    have hme : m.endPos ≤ n :=
      le_trans (chained_le_endOf h5) hend'
    refine ⟨h1, h2, le_trans hme (length_ge_of_take_eq hc hn), ?_, ?_⟩
    · rw [slice_of_take_eq hc hme]
      exact h4
    · exact chained_change hc hn h5 hend'

theorem chained_snoc {c : List Char} {m : SecretMatch} :
    ∀ {xs : List SecretMatch} {prev : Nat}, Chained c prev (xs ++ [m]) →
      Chained c prev xs ∧ endOf prev xs ≤ m.start ∧ m.start < m.endPos ∧
        m.endPos ≤ c.length ∧ m.value = slice c m.start m.endPos
  | [], prev, h => ⟨trivial, h.1, h.2.1, h.2.2.1, h.2.2.2.1⟩
  | x :: xs, prev, h => by
    obtain ⟨h1, h2, h3, h4, h5⟩ := h
    obtain ⟨hc, he, hm⟩ := chained_snoc h5
    exact ⟨⟨h1, h2, h3, h4, hc⟩, he, hm⟩

theorem pairsOf_snoc (m : SecretMatch) :
    ∀ (xs : List SecretMatch) (kc : Nat),
      pairsOf kc (xs ++ [m]) =
        pairsOf (kc + 1) xs ++ [(mkPlaceholder m.secret_type kc, m.value)]
  | [], kc => by simp [pairsOf]
  | x :: xs, kc => by
    simp only [List.cons_append, pairsOf, pairsOf_snoc m xs kc, List.append_eq]
    rw [show kc + (xs ++ [m]).length = kc + 1 + xs.length by
      simp only [List.length_append, List.length_cons, List.length_nil]
      omega]

theorem sanitOf_snoc {c : List Char} {m : SecretMatch}
    (hms : m.start < m.endPos) (hmc : m.endPos ≤ c.length) :
    ∀ (xs : List SecretMatch) (kc prev : Nat),
      Chained c prev xs → endOf prev xs ≤ m.start →
      sanitOf (c.take m.start ++ mkPlaceholder m.secret_type kc ++ c.drop m.endPos)
          (kc + 1) prev xs =
        sanitOf c kc prev (xs ++ [m])
  | [], kc, prev, _, hend => by
    have hsc : m.start ≤ c.length := le_trans (Nat.le_of_lt hms) hmc
    have hp : prev ≤ m.start := by simpa [endOf] using hend
    have hprev : prev ≤ (c.take m.start).length := by
      simp [List.length_take]
      omega
    simp only [sanitOf, List.nil_append, List.append_assoc]
    rw [List.drop_append_of_le_length hprev]
    have hdt : (c.take m.start).drop prev = (c.drop prev).take (m.start - prev) := by
      rw [List.drop_take]
    rw [hdt]
    simp
  | x :: xs, kc, prev, hch, hend => by
    obtain ⟨h1, h2, h3, h4, h5⟩ := hch
    have hend' : endOf x.endPos xs ≤ m.start := by simpa [endOf] using hend
    have hxe : x.endPos ≤ m.start := le_trans (chained_le_endOf h5) hend'
    have hxs : x.start ≤ m.start := le_trans (le_of_lt h2) hxe
    have htk : (c.take m.start ++ mkPlaceholder m.secret_type kc ++
        c.drop m.endPos).take m.start = c.take m.start := by
      rw [List.append_assoc, List.take_append_of_le_length
        (by simp [List.length_take]; omega), List.take_take]
      congr 1
      omega
    have hseg : slice (c.take m.start ++ mkPlaceholder m.secret_type kc ++
        c.drop m.endPos) prev x.start = slice c prev x.start :=
      slice_of_take_eq htk hxs
    simp only [slice] at hseg
    simp only [List.cons_append, sanitOf, List.append_eq]
    rw [sanitOf_snoc hms hmc xs kc x.endPos h5 hend']
    rw [hseg]
    rw [show kc + (xs ++ [m]).length = kc + 1 + xs.length by
      simp only [List.length_append, List.length_cons, List.length_nil]
      omega]

theorem redactLoop_decomp :
    ∀ (asc : List SecretMatch) (c : List Char) (kc : Nat), Chained c 0 asc →
      redactLoop c kc asc.reverse = (sanitOf c kc 0 asc, (pairsOf kc asc).reverse) := by
  intro asc
  induction asc using List.reverseRecOn with
  | nil => intro c kc _; simp [redactLoop, sanitOf, pairsOf]
  | append_singleton as m ih =>
    intro c kc hch
    obtain ⟨has, hend, hm1, hm2, hm3⟩ := chained_snoc hch
    have hrev : (as ++ [m]).reverse = m :: as.reverse := by simp
    rw [hrev]
    simp only [redactLoop]
    have htk : (c.take m.start ++ mkPlaceholder m.secret_type kc ++
        c.drop m.endPos).take m.start = c.take m.start := by
      rw [List.append_assoc, List.take_append_of_le_length
        (by simp [List.length_take]; omega), List.take_take]
      congr 1
      omega
    have has2 : Chained (c.take m.start ++ mkPlaceholder m.secret_type kc ++
        c.drop m.endPos) 0 as :=
      chained_change htk (le_trans (Nat.le_of_lt hm1) hm2) has hend
    rw [ih _ (kc + 1) has2]
    rw [sanitOf_snoc hm1 hm2 as kc 0 has hend]
    rw [pairsOf_snoc m as kc]
    simp

/-! ### The sort produces a descending permutation -/

theorem insertDesc_perm (m : SecretMatch) :
    ∀ l : List SecretMatch, List.Perm (insertDesc m l) (m :: l)
  | [] => List.Perm.refl _
  | x :: xs => by
    unfold insertDesc
    split
    · exact List.Perm.refl _
    · exact ((insertDesc_perm m xs).cons x).trans (List.Perm.swap m x xs)

theorem sortDesc_perm : ∀ l : List SecretMatch, List.Perm (sortDesc l) l
  | [] => List.Perm.refl _
  | x :: xs => by
    unfold sortDesc
    simp only [List.foldr_cons]
    exact (insertDesc_perm x _).trans ((sortDesc_perm xs).cons x)

theorem insertDesc_mem {y m : SecretMatch} {l : List SecretMatch} :
    y ∈ insertDesc m l ↔ y = m ∨ y ∈ l := by
  rw [(insertDesc_perm m l).mem_iff]
  simp

theorem insertDesc_sorted (m : SecretMatch) :
    ∀ {l : List SecretMatch}, l.Pairwise (fun a b => b.start ≤ a.start) →
      (insertDesc m l).Pairwise (fun a b => b.start ≤ a.start)
  | [], _ => List.pairwise_singleton _ _
  | x :: xs, h => by
    unfold insertDesc
    obtain ⟨hx, hxs⟩ := List.pairwise_cons.mp h
    split
    · next hle =>
      refine List.pairwise_cons.mpr ⟨?_, h⟩
      intro y hy
      rcases List.mem_cons.mp hy with rfl | hmem
      · exact hle
      · exact le_trans (hx y hmem) hle
    · next hgt =>
      refine List.pairwise_cons.mpr ⟨?_, insertDesc_sorted m hxs⟩
      intro y hy
      rcases insertDesc_mem.mp hy with rfl | hmem
      · omega
      · exact hx y hmem

theorem sortDesc_sorted :
    ∀ l : List SecretMatch, (sortDesc l).Pairwise (fun a b => b.start ≤ a.start)
  | [] => List.Pairwise.nil
  | x :: xs => by
    unfold sortDesc
    simp only [List.foldr_cons]
    exact insertDesc_sorted x (sortDesc_sorted xs)

theorem chained_of_sorted {c : List Char} :
    ∀ {l : List SecretMatch},
      (∀ m ∈ l, m.start < m.endPos ∧ m.endPos ≤ c.length ∧
        m.value = slice c m.start m.endPos) →
      l.Pairwise (fun a b => a.start ≤ b.start) →
      l.Pairwise (fun a b => a.endPos ≤ b.start ∨ b.endPos ≤ a.start) →
      ∀ lo, (∀ m ∈ l, lo ≤ m.start) → Chained c lo l
  | [], _, _, _, _, _ => trivial
  | m :: rest, hv, hs, hd, lo, hlo => by
    obtain ⟨hm1, hm2, hm3⟩ := hv m (List.mem_cons_self m rest)
    obtain ⟨hsm, hs'⟩ := List.pairwise_cons.mp hs
    obtain ⟨hdm, hd'⟩ := List.pairwise_cons.mp hd
    refine ⟨hlo m (List.mem_cons_self m rest), hm1, hm2, hm3, ?_⟩
    refine chained_of_sorted (fun y hy => hv y (List.mem_cons_of_mem m hy)) hs' hd'
      m.endPos (fun y hy => ?_)
    rcases hdm y hy with h | h
    · exact h
    · obtain ⟨hy1, _, _⟩ := hv y (List.mem_cons_of_mem m hy)
      have := hsm y hy
      omega

theorem chained_of_valid {c : List Char} {ms : List SecretMatch}
    (h : ValidMatches c ms) : Chained c 0 ((sortDesc ms).reverse) := by
  obtain ⟨hv, hd⟩ := h
  have hperm : List.Perm (sortDesc ms) ms := sortDesc_perm ms
  have hvrev : ∀ m ∈ (sortDesc ms).reverse, m.start < m.endPos ∧ m.endPos ≤ c.length ∧
      m.value = slice c m.start m.endPos := by
    intro m hm
    exact hv m (hperm.mem_iff.mp (List.mem_reverse.mp hm))
  have hsorted : (sortDesc ms).reverse.Pairwise (fun a b => a.start ≤ b.start) := by
    rw [List.pairwise_reverse]
    exact sortDesc_sorted ms
  have hdisj : (sortDesc ms).reverse.Pairwise
      (fun a b => a.endPos ≤ b.start ∨ b.endPos ≤ a.start) := by
    rw [List.pairwise_reverse]
    refine ((hperm.pairwise_iff ?_).mpr hd).imp ?_
    · intro a b hab
      exact hab.symm
    · intro a b hab
      exact hab.symm
  exact chained_of_sorted hvrev hsorted hdisj 0 (fun m _ => Nat.zero_le _)

/-! ## Claim C5: redaction splices at explicit offsets -/

/-- C5: for every valid set of confirmed matches (in particular one where
the same secret value occurs at several distinct offsets), `redact` equals
the explicit decomposition that sorts by start offset descending and
splices each placeholder at that match's own captured offsets — never a
value-based search-and-replace. -/
theorem c5_redact_splices_at_offsets (c : List Char) (ms : List SecretMatch)
    (h : ValidMatches c ms) :
    redact c ms =
      (sanitOf c 0 0 ((sortDesc ms).reverse),
       (pairsOf 0 ((sortDesc ms).reverse)).reverse) := by
  have := redactLoop_decomp ((sortDesc ms).reverse) c 0 (chained_of_valid h)
  rw [List.reverse_reverse] at this
  exact this

def wRep : SecretMatch :=
  { value := w32, start := 0, endPos := 32, confidence := 9 / 10,
    secret_type := tGENERIC }

def wRep2 : SecretMatch :=
  { value := w32, start := 33, endPos := 65, confidence := 9 / 10,
    secret_type := tGENERIC }

/-- The same 32-character secret at two different offsets. -/
def wRepContent : List Char := w32 ++ ' ' :: w32

/-- Witness for C5 on content where one secret value occurs twice. -/
theorem c5_redact_splices_at_offsets_witness :
    redact wRepContent [wRep, wRep2] =
      (sanitOf wRepContent 0 0 ((sortDesc [wRep, wRep2]).reverse),
       (pairsOf 0 ((sortDesc [wRep, wRep2]).reverse)).reverse) :=
  c5_redact_splices_at_offsets wRepContent [wRep, wRep2]
    (by constructor
        · decide
        · decide)

/-! ## Claim C7: the zero-match fast path -/

theorem processVar_id_of_benign {hash : List Char → List Char}
    {iso epoch pid enableMasking : List Char} {env : List (List Char × List Char)}
    {v : List Char}
    (hben : ∀ val, lookupEnv env v = some val → val ≠ [] →
      detect_secret_type val = none ∧ is_sensitive_env_var v = false)
    (acc : List Char × List Commitment × List Commitment) :
    processVar hash iso epoch pid enableMasking env acc v = acc := by
  unfold processVar
  split
  · rfl
  · rcases hval : lookupEnv env v with _ | val
    · simp [hval]
    · rcases hempty : val.isEmpty with _ | _
      · have hne : val ≠ [] := by
          intro h
          subst h
          simp at hempty
        obtain ⟨hdet, hsens⟩ := hben val hval hne
        simp [hval, hempty, hdet, hsens]
      · simp [hval, hempty]

theorem foldl_processVar_benign {hash : List Char → List Char}
    {iso epoch pid enableMasking : List Char} {env : List (List Char × List Char)} :
    ∀ (vars : List (List Char)) (acc : List Char × List Commitment × List Commitment),
      (∀ v ∈ vars, ∀ val, lookupEnv env v = some val → val ≠ [] →
        detect_secret_type val = none ∧ is_sensitive_env_var v = false) →
      vars.foldl (processVar hash iso epoch pid enableMasking env) acc = acc := by
  intro vars
  induction vars with
  | nil => intro acc _; rfl
  | cons v vs ih =>
    intro acc hben
    simp only [List.foldl_cons,
      processVar_id_of_benign (hben v (List.mem_cons_self v vs)) acc]
    exact ih acc (fun y hy => hben y (List.mem_cons_of_mem v hy))

/-- C7: zero confirmed matches is a no-op — `redact` returns the content
byte-identical with an empty mapping, and when no referenced variable of a
command holds a detected or name-sensitive non-empty value,
`process_command` forwards the command unchanged. -/
theorem c7_zero_matches_identity (content : List Char) (hash : List Char → List Char)
    (iso epoch pid enableMasking : List Char) (env : List (List Char × List Char))
    (command : List Char) :
    redact content [] = (content, []) ∧
    ((∀ v ∈ commandVars command, ∀ val, lookupEnv env v = some val → val ≠ [] →
        detect_secret_type val = none ∧ is_sensitive_env_var v = false) →
      process_command hash iso epoch pid enableMasking env command =
        ⟨command, [], []⟩) := by
  constructor
  · rfl
  · intro hben
    simp only [process_command, foldl_processVar_benign (commandVars command) _ hben]

def wHello : List Char := "echo hello".toList

/-- Witness for C7: `echo hello` with an empty environment. -/
theorem c7_zero_matches_identity_witness :
    redact wHello [] = (wHello, []) ∧
    process_command idHash wIso wEpoch wPid litTrue [] wHello =
      ⟨wHello, [], []⟩ :=
  ⟨(c7_zero_matches_identity wHello idHash wIso wEpoch wPid litTrue [] wHello).1,
   (c7_zero_matches_identity wHello idHash wIso wEpoch wPid litTrue [] wHello).2
     (by decide)⟩

/-! ## The audit chain (claims C2 and C3)

Modelled from the spec: the hash-linked audit chain implementation
(`zero_trust_security/core/audit_chain.py`, referenced by the repository
documentation) is not among the sources; `append` and `verifyIntegrity`
below follow spec §4.4 word by word. -/

inductive Decision where
  | ALLOW : Decision
  | BLOCK : Decision
  deriving DecidableEq, Repr

def decisionChars : Decision → List Char
  | .ALLOW => "ALLOW".toList
  | .BLOCK => "BLOCK".toList

/-- The payload of one audit entry: timestamp, commitment id, secret
types and the decision, per the audit log format of spec §6. -/
structure EntryData where
  timestamp : List Char
  commitmentId : List Char
  secretTypes : List (List Char)
  decision : Decision
  deriving DecidableEq, Repr

structure AuditEntry where
  sequenceNumber : Nat
  timestamp : List Char
  commitmentId : List Char
  secretTypes : List (List Char)
  decision : Decision
  previousEntryHash : List Char
  entryHash : List Char
  deriving DecidableEq, Repr

/-- Modelled from the spec: the fixed genesis hash of §4.4. -/
def genesisHash : List Char := List.replicate 64 '0'

def joinTypes (ts : List (List Char)) : List Char :=
  ts.foldr (fun t acc => t ++ ',' :: acc) []

/-- Modelled from the spec: `canonicalSerialize(entry)` — a fixed
delimiter-separated rendering of the content fields. -/
def serializeData (seqn : Nat) (d : EntryData) : List Char :=
  d.timestamp ++ '|' :: (natChars seqn ++ '|' :: (d.commitmentId ++
    '|' :: (joinTypes d.secretTypes ++ '|' :: decisionChars d.decision)))

def canonicalSerialize (e : AuditEntry) : List Char :=
  serializeData e.sequenceNumber
    ⟨e.timestamp, e.commitmentId, e.secretTypes, e.decision⟩

def lastSeq (chain : List AuditEntry) : Nat :=
  match chain.getLast? with
  | none => 0
  | some e => e.sequenceNumber

def lastHash (chain : List AuditEntry) : List Char :=
  match chain.getLast? with
  | none => genesisHash
  | some e => e.entryHash

/-- Modelled from the spec: `append(entry)` computes
`entryHash = Hash(previousEntryHash ‖ canonicalSerialize(entry))` and
`sequenceNumber = previous + 1`. -/
def appendEntry (hash : List Char → List Char) (chain : List AuditEntry)
    (d : EntryData) : AuditEntry :=
  { sequenceNumber := lastSeq chain + 1, timestamp := d.timestamp,
    commitmentId := d.commitmentId, secretTypes := d.secretTypes,
    decision := d.decision, previousEntryHash := lastHash chain,
    entryHash := hash (lastHash chain ++ serializeData (lastSeq chain + 1) d) }

def appendAudit (hash : List Char → List Char) (chain : List AuditEntry)
    (d : EntryData) : List AuditEntry :=
  chain ++ [appendEntry hash chain d]

def buildChain (hash : List Char → List Char) (ds : List EntryData) :
    List AuditEntry :=
  ds.foldl (appendAudit hash) []

/-- Modelled from the spec: `verifyIntegrity` replays from the running
previous hash, checking the link and recomputing each stored `entryHash`,
and reports the first divergent entry's sequence number. -/
def verifyFrom (hash : List Char → List Char) : List Char → List AuditEntry → Option Nat
  | _, [] => none
  | prev, e :: rest =>
    if e.previousEntryHash ≠ prev then some e.sequenceNumber
    else if e.entryHash ≠ hash (prev ++ canonicalSerialize e) then some e.sequenceNumber
    else verifyFrom hash e.entryHash rest

def verifyIntegrity (hash : List Char → List Char) (entries : List AuditEntry) :
    Option Nat :=
  verifyFrom hash genesisHash entries

/-- The hash-chain invariant the claim asserts: consecutive sequence
numbers, stored hashes recomputable, forward links intact. -/
def chainOk (hash : List Char → List Char) : List Char → Nat → List AuditEntry → Prop
  | _, _, [] => True
  | prev, seqn, e :: rest =>
    e.previousEntryHash = prev ∧ e.sequenceNumber = seqn ∧
      e.entryHash = hash (prev ++ canonicalSerialize e) ∧
      chainOk hash e.entryHash (seqn + 1) rest

def lastHashFrom (p : List Char) : List AuditEntry → List Char
  | [] => p
  | e :: rest => lastHashFrom e.entryHash rest

theorem lastHashFrom_spec :
    ∀ (l : List AuditEntry) (p : List Char),
      lastHashFrom p l = match l.getLast? with
        | none => p
        | some e => e.entryHash
  | [], _ => rfl
  | e :: rest, p => by
    rw [lastHashFrom, lastHashFrom_spec rest e.entryHash]
    cases rest with
    | nil => simp
    | cons f fs =>
      rw [List.getLast?_cons_cons]
      cases hg : (f :: fs).getLast? with
      | none => exact absurd hg (by simp)
      | some x => rfl

theorem chainOk_snoc (hash : List Char → List Char) (e : AuditEntry) :
    ∀ (l : List AuditEntry) (p : List Char) (seqn : Nat),
      chainOk hash p seqn (l ++ [e]) ↔
        chainOk hash p seqn l ∧ e.previousEntryHash = lastHashFrom p l ∧
          e.sequenceNumber = seqn + l.length ∧
          e.entryHash = hash (lastHashFrom p l ++ canonicalSerialize e)
  | [], p, seqn => by
    simp only [List.nil_append, chainOk, lastHashFrom, List.length_nil, Nat.add_zero]
    tauto
  | x :: xs, p, seqn => by
    simp only [List.cons_append, List.append_eq, chainOk, lastHashFrom,
      chainOk_snoc hash e xs x.entryHash (seqn + 1), List.length_cons]
    constructor
    · rintro ⟨h1, h2, h3, h4, h5, h6, h7⟩
      exact ⟨⟨h1, h2, h3, h4⟩, h5, by omega, h7⟩
    · rintro ⟨⟨h1, h2, h3, h4⟩, h5, h6, h7⟩
      exact ⟨h1, h2, h3, h4, h5, by omega, h7⟩

theorem build_inv (hash : List Char → List Char) :
    ∀ (ds : List EntryData) (chain : List AuditEntry),
      chainOk hash genesisHash 1 chain → lastSeq chain = chain.length →
      lastHash chain = lastHashFrom genesisHash chain →
      chainOk hash genesisHash 1 (ds.foldl (appendAudit hash) chain) ∧
        lastSeq (ds.foldl (appendAudit hash) chain) =
          (ds.foldl (appendAudit hash) chain).length ∧
        lastHash (ds.foldl (appendAudit hash) chain) =
          lastHashFrom genesisHash (ds.foldl (appendAudit hash) chain) := by
  intro ds
  induction ds with
  | nil => exact fun chain h1 h2 h3 => ⟨h1, h2, h3⟩
  | cons d ds ih =>
    intro chain h1 h2 h3
    simp only [List.foldl_cons]
    refine ih (appendAudit hash chain d) ?_ ?_ ?_
    · rw [appendAudit, chainOk_snoc]
      refine ⟨h1, by rw [appendEntry, ← h3],
        by simp only [appendEntry]; omega, ?_⟩
      rw [appendEntry, ← h3]
      rfl
    · rw [appendAudit, lastSeq, List.getLast?_concat]
      simp [appendEntry, h2]
    · rw [appendAudit, lastHash, List.getLast?_concat, lastHashFrom_spec,
        List.getLast?_concat]

/-- C2 (modelled from the spec): every `append` produces an entry whose
`entryHash` is `Hash(previousEntryHash ‖ canonicalSerialize(entry))` and
whose `sequenceNumber` is the previous entry's plus one, and any chain of
appends from genesis satisfies the singly-linked hash-chain invariant. -/
theorem c2_append_hash_chain (hash : List Char → List Char)
    (chain : List AuditEntry) (d : EntryData) :
    (appendEntry hash chain d).entryHash =
      hash ((appendEntry hash chain d).previousEntryHash ++
        canonicalSerialize (appendEntry hash chain d)) ∧
    (appendEntry hash chain d).sequenceNumber = lastSeq chain + 1 ∧
    ∀ ds : List EntryData, chainOk hash genesisHash 1 (buildChain hash ds) :=
  ⟨rfl, rfl, fun ds => (build_inv hash ds [] trivial rfl rfl).1⟩

/-! ### Tamper detection (claim C3) -/

def tamperDecision (entries : List AuditEntry) (k : Nat) (d : Decision) :
    List AuditEntry :=
  entries.map (fun e =>
    if e.sequenceNumber = k then { e with decision := d } else e)

theorem decisionChars_injective {a b : Decision} (h : decisionChars a = decisionChars b) :
    a = b := by
  cases a <;> cases b <;> first | rfl | (exfalso; revert h; decide)

theorem canonicalSerialize_tamper_ne (e : AuditEntry) (d : Decision)
    (hne : d ≠ e.decision) :
    canonicalSerialize { e with decision := d } ≠ canonicalSerialize e := by
  intro h
  apply hne
  apply decisionChars_injective
  simp only [canonicalSerialize, serializeData] at h
  have h1 := List.append_cancel_left h
  injection h1 with _ h2
  have h3 := List.append_cancel_left h2
  injection h3 with _ h4
  have h5 := List.append_cancel_left h4
  injection h5 with _ h6
  have h7 := List.append_cancel_left h6
  injection h7

theorem verifyFrom_tamper (hash : List Char → List Char)
    (hinj : Function.Injective hash) {k : Nat} {dnew : Decision} :
    ∀ (entries : List AuditEntry) (prev : List Char) (seqn : Nat),
      chainOk hash prev seqn entries → seqn ≤ k → k < seqn + entries.length →
      (∀ e ∈ entries, e.sequenceNumber = k → e.decision ≠ dnew) →
      verifyFrom hash prev (tamperDecision entries k dnew) = some k
  | [], _, _, _, hk1, hk2, _ => by simp at hk2; omega
  | e :: rest, prev, seqn, hch, hk1, hk2, hdec => by
    obtain ⟨h1, h2, h3, h4⟩ := hch
    by_cases hek : seqn = k
    · subst hek
      have hseq : e.sequenceNumber = seqn := h2
      have htampered : tamperDecision (e :: rest) seqn dnew =
          { e with decision := dnew } :: tamperDecision rest seqn dnew := by
        simp [tamperDecision, hseq]
      rw [htampered]
      have hdne : dnew ≠ e.decision := by
        intro hcontra
        exact hdec e (List.mem_cons_self e rest) hseq hcontra.symm
      have hser := canonicalSerialize_tamper_ne e dnew hdne
      have hhne : ({ e with decision := dnew } : AuditEntry).entryHash ≠
          hash (prev ++ canonicalSerialize { e with decision := dnew }) := by
        show e.entryHash ≠ _
        rw [h3]
        intro hcontra
        exact hser (List.append_cancel_left (hinj hcontra)).symm
      rw [verifyFrom]
      rw [if_neg (by simp [h1]), if_pos hhne]
      exact congrArg some hseq
    · have hlt : seqn < k := lt_of_le_of_ne hk1 hek
      have hnotk : e.sequenceNumber ≠ k := by rw [h2]; exact hek
      have htampered : tamperDecision (e :: rest) k dnew =
          e :: tamperDecision rest k dnew := by
        simp [tamperDecision, hnotk]
      rw [htampered, verifyFrom]
      rw [if_neg (by simp [h1]), if_neg (by simp [h3])]
      refine verifyFrom_tamper hash hinj rest e.entryHash (seqn + 1) h4
        hlt ?_ (fun y hy => hdec y (List.mem_cons_of_mem e hy))
      simp only [List.length_cons] at hk2
      omega

theorem buildChain_length (hash : List Char → List Char) :
    ∀ (ds : List EntryData) (chain : List AuditEntry),
      (ds.foldl (appendAudit hash) chain).length = chain.length + ds.length
  | [], chain => by simp
  | d :: ds, chain => by
    simp only [List.foldl_cons, buildChain_length hash ds, appendAudit,
      List.length_append, List.length_cons, List.length_nil]
    omega

/-- C3 (modelled from the spec): editing the decision field of the entry
with sequence number `k` of a chain built by appends, leaving every other
entry unchanged, makes `verifyIntegrity` report the first violating
sequence number exactly `k`. -/
theorem c3_tamper_reported_at_k (hash : List Char → List Char)
    (hinj : Function.Injective hash) (ds : List EntryData) (k : Nat)
    (dnew : Decision) (hk1 : 1 ≤ k) (hk2 : k ≤ ds.length)
    (hdec : ∀ e ∈ buildChain hash ds, e.sequenceNumber = k → e.decision ≠ dnew) :
    verifyIntegrity hash (tamperDecision (buildChain hash ds) k dnew) = some k := by
  unfold verifyIntegrity
  refine verifyFrom_tamper hash hinj (buildChain hash ds) genesisHash 1
    (build_inv hash ds [] trivial rfl rfl).1 hk1 ?_ hdec
  have := buildChain_length hash ds []
  simp only [List.length_nil, Nat.zero_add] at this
  rw [buildChain, this]
  omega

def consHash : List Char → List Char := fun l => 'H' :: l

theorem consHash_injective : Function.Injective consHash := by
  intro a b h
  injection h

def wEntry (n : Nat) : EntryData :=
  ⟨wIso, natChars n, [tGENERIC], Decision.ALLOW⟩

def wChainData : List EntryData :=
  [wEntry 1, wEntry 2, wEntry 3, wEntry 4, wEntry 5]

/-- Witness for C3: a five-entry chain with entry 3's decision edited is
reported at sequence number 3. -/
theorem c3_tamper_reported_at_k_witness :
    verifyIntegrity consHash
      (tamperDecision (buildChain consHash wChainData) 3 Decision.BLOCK) = some 3 :=
  c3_tamper_reported_at_k consHash consHash_injective wChainData 3 Decision.BLOCK
    (by decide) (by decide) (by decide)

/-! ## Claim C8: the pattern detector's validator
(`PatternDetector.detect`, `archive/documentation/SPEC.md` §3.1.1) -/

/-- A pattern detector: a fixed regex (abstracted as the list of its
`finditer` spans over a text) plus a validator predicate; accepted
matches get the fixed confidence 0.9. -/
structure PatternDetector where
  secret_type : List Char
  findSpans : List Char → List (Nat × Nat)
  validator : List Char → Bool

def PatternDetector.detect (d : PatternDetector) (text : List Char) :
    List SecretMatch :=
  (d.findSpans text).filterMap (fun sp =>
    if d.validator (slice text sp.1 sp.2) then
      some { value := slice text sp.1 sp.2, start := sp.1, endPos := sp.2,
             confidence := 9 / 10, secret_type := d.secret_type }
    else none)

def litEXAMPLE : List Char := "EXAMPLE".toList

/-- The false-positive validator of the SPEC.md test:
`lambda x: 'EXAMPLE' not in x.upper()`. -/
def noExampleValidator (v : List Char) : Bool :=
  !(containsSub litEXAMPLE (v.map Char.toUpper))

theorem isPrefixOf_map {f : Char → Char} :
    ∀ {p s : List Char}, p.isPrefixOf s = true → (p.map f).isPrefixOf (s.map f) = true
  | [], s, _ => by simp [List.isPrefixOf]
  | a :: p, [], h => by simp [List.isPrefixOf] at h
  | a :: p, b :: s, h => by
    simp only [List.isPrefixOf, Bool.and_eq_true, beq_iff_eq] at h
    obtain ⟨rfl, h2⟩ := h
    simp only [List.map_cons, List.isPrefixOf, Bool.and_eq_true, beq_iff_eq,
      true_and, and_true, eq_self_iff_true]
    exact isPrefixOf_map h2

theorem containsSub_map {f : Char → Char} {p s : List Char}
    (h : containsSub p s = true) :
    containsSub (p.map f) (s.map f) = true := by
  simp only [containsSub, List.any_eq_true, List.mem_range] at h ⊢
  obtain ⟨i, hi, hocc⟩ := h
  refine ⟨i, by simpa using hi, ?_⟩
  simp only [occursAt] at hocc ⊢
  rw [← List.map_drop]
  exact isPrefixOf_map hocc

theorem noExample_rejects {v : List Char} (h : containsSub litEXAMPLE v = true) :
    noExampleValidator v = false := by
  have hup : containsSub litEXAMPLE (v.map Char.toUpper) = true := by
    have := @containsSub_map Char.toUpper litEXAMPLE v h
    rwa [show litEXAMPLE.map Char.toUpper = litEXAMPLE from by decide] at this
  simp [noExampleValidator, hup]

/-- C8: with the EXAMPLE-rejecting validator, a value that matches the
detector's regex but contains the substring `EXAMPLE` produces no
`SecretMatch` (if every regex match contains it, the detector returns no
matches at all, so the call is allowed), and every accepted match carries
the fixed confidence 0.9. -/
theorem c8_validator_suppresses_example (stype : List Char)
    (findSpans : List Char → List (Nat × Nat)) (text : List Char) :
    (∀ m ∈ PatternDetector.detect ⟨stype, findSpans, noExampleValidator⟩ text,
        containsSub litEXAMPLE m.value = false ∧ m.confidence = 9 / 10) ∧
    ((∀ sp ∈ findSpans text, containsSub litEXAMPLE (slice text sp.1 sp.2) = true) →
      PatternDetector.detect ⟨stype, findSpans, noExampleValidator⟩ text = []) := by
  constructor
  · intro m hm
    simp only [PatternDetector.detect, List.mem_filterMap] at hm
    obtain ⟨sp, _, hsp⟩ := hm
    by_cases hv : noExampleValidator (slice text sp.1 sp.2) = true
    · rw [if_pos hv] at hsp
      obtain rfl := Option.some.inj hsp
      refine ⟨?_, rfl⟩
      by_cases hex : containsSub litEXAMPLE (slice text sp.1 sp.2) = true
      · rw [noExample_rejects hex] at hv
        exact absurd hv (by simp)
      · simpa using hex
    · rw [if_neg hv] at hsp
      exact absurd hsp (by simp)
  · intro hall
    simp only [PatternDetector.detect]
    rw [List.filterMap_eq_nil_iff]
    intro sp hsp
    rw [if_neg]
    rw [noExample_rejects (hall sp hsp)]
    simp

def wC8spans : List Char → List (Nat × Nat) := fun _ => [(0, 50)]

/-- `sk-` followed by `EXAMPLE` and 40 `b`: matches the OpenAI shape but
contains `EXAMPLE`. -/
def wC8text : List Char :=
  "sk-EXAMPLEbbbbbbbbbbbbbbbbbbbbbbbbbbbbbbbbbbbbbbbb".toList

def wC8clean : List Char :=
  "sk-cccccccbbbbbbbbbbbbbbbbbbbbbbbbbbbbbbbbbbbbbbbb".toList

/-- Witness for C8: the embedded EXAMPLE suppresses the detection, and a
clean value of the same shape is accepted with confidence 0.9. -/
theorem c8_validator_suppresses_example_witness :
    PatternDetector.detect ⟨tOPENAI, wC8spans, noExampleValidator⟩ wC8text = [] ∧
    (containsSub litEXAMPLE
        (slice wC8clean 0 50) = false ∧
      (9 : ℚ) / 10 = 9 / 10) :=
  ⟨(c8_validator_suppresses_example tOPENAI wC8spans wC8text).2 (by decide),
   by
    have h := (c8_validator_suppresses_example tOPENAI wC8spans wC8clean).1
      { value := slice wC8clean 0 50, start := 0, endPos := 50,
        confidence := 9 / 10, secret_type := tOPENAI }
      (by
        simp only [PatternDetector.detect, List.mem_filterMap]
        exact ⟨(0, 50), by decide, by rw [if_pos (by decide)]⟩)
    exact ⟨h.1, h.2⟩⟩

/-! ## Claim C4: `restore` inverts `redact`

Modelled from the spec: `restore(sanitizedContent, mapping)` is described
in §4.2 but its implementation is not among the sources; it is modelled
as a single left-to-right pass replacing each placeholder occurrence by
its raw value. -/

/-- The first mapping entry whose (non-empty) placeholder starts the
given suffix. -/
def findMatch (mapping : List (List Char × List Char)) (s : List Char) :
    Option (List Char × List Char) :=
  mapping.find? (fun pv => !pv.1.isEmpty && pv.1.isPrefixOf s)

/-- Modelled from the spec: the single scan of `restore`; `s.length` fuel
steps always suffice. -/
def restoreAux (mapping : List (List Char × List Char)) : Nat → List Char → List Char
  | 0, s => s
  | fuel + 1, s =>
    match s with
    | [] => []
    | c :: rest =>
      match findMatch mapping (c :: rest) with
      | some pv => pv.2 ++ restoreAux mapping fuel (rest.drop (pv.1.length - 1))
      | none => c :: restoreAux mapping fuel rest

def restore (s : List Char) (mapping : List (List Char × List Char)) : List Char :=
  restoreAux mapping s.length s

/-! ### Interleavings of text segments and placeholders -/

/-- The sanitized text: `seg₀ ++ p₀ ++ seg₁ ++ p₁ ++ … ++ tail`. -/
def renderS : List (List Char × List Char × List Char) → List Char → List Char
  | [], tail => tail
  | (g, p, _) :: rest, tail => g ++ (p ++ renderS rest tail)

/-- The original text: each placeholder replaced by its raw value. -/
def renderO : List (List Char × List Char × List Char) → List Char → List Char
  | [], tail => tail
  | (g, _, v) :: rest, tail => g ++ (v ++ renderO rest tail)

/-- What the restore scan needs: no mapping placeholder matches inside a
segment or the tail, and at each insertion point exactly the inserted
pair is found. -/
def ScanOk (mapping : List (List Char × List Char)) :
    List (List Char × List Char × List Char) → List Char → Prop
  | [], tail => ∀ n, n < tail.length → findMatch mapping (tail.drop n) = none
  | (g, p, v) :: rest, tail =>
    (∀ n, n < g.length →
      findMatch mapping (g.drop n ++ (p ++ renderS rest tail)) = none) ∧
    findMatch mapping (p ++ renderS rest tail) = some (p, v) ∧
    ScanOk mapping rest tail

theorem findMatch_some_nonempty {mapping : List (List Char × List Char)}
    {s : List Char} {pv : List Char × List Char}
    (h : findMatch mapping s = some pv) : pv.1 ≠ [] := by
  have := List.find?_some h
  simp only [Bool.and_eq_true, Bool.not_eq_true'] at this
  intro hcon
  rw [hcon] at this
  simp at this

theorem restoreAux_scan (mapping : List (List Char × List Char)) :
    ∀ (fuel : Nat) (parts : List (List Char × List Char × List Char))
      (tail : List Char),
      (renderS parts tail).length ≤ fuel → ScanOk mapping parts tail →
      restoreAux mapping fuel (renderS parts tail) = renderO parts tail := by
  intro fuel
  induction fuel using Nat.strong_induction_on with
  | _ fuel ih =>
    intro parts tail hlen hscan
    match parts with
    | [] =>
      match tail, hlen with
      | [], _ => cases fuel <;> rfl
      | c :: rest, hlen =>
        match fuel, hlen with
        | f + 1, hlen =>
          have h0 := hscan 0 (by simp)
          simp only [List.drop_zero] at h0
          show restoreAux mapping (f + 1) (c :: rest) = c :: rest
          simp only [restoreAux, h0]
          have htail : restoreAux mapping f (renderS [] rest) = renderO [] rest := by
            refine ih f (by omega) [] rest ?_ ?_
            · show rest.length ≤ f
              simp only [renderS, List.length_cons] at hlen ⊢
              omega
            · intro n hn
              have := hscan (n + 1) (by simp; omega)
              simpa using this
          simpa [renderS, renderO] using htail
    | (g, p, v) :: rest =>
      obtain ⟨hseg, hins, hrest⟩ := hscan
      match g with
      | [] =>
        have hpne : p ≠ [] := findMatch_some_nonempty hins
        match p, hpne with
        | pc :: p', _ =>
          show restoreAux mapping fuel ([] ++ ((pc :: p') ++ renderS rest tail)) = _
          simp only [List.nil_append, List.cons_append]
          match fuel, hlen with
          | f + 1, hlen =>
            have hfind : findMatch mapping (pc :: (p' ++ renderS rest tail)) =
                some (pc :: p', v) := by
              have := hins
              simpa [renderS] using this
            simp only [restoreAux, hfind]
            have hdrop : (p' ++ renderS rest tail).drop ((pc :: p').length - 1) =
                renderS rest tail := by
              simp only [List.length_cons, Nat.add_sub_cancel]
              exact List.drop_left p' (renderS rest tail)
            rw [hdrop]
            have : restoreAux mapping f (renderS rest tail) = renderO rest tail := by
              refine ih f (by omega) rest tail ?_ hrest
              simp only [renderS, List.nil_append, List.cons_append,
                List.length_cons, List.length_append] at hlen
              omega
            rw [this]
            simp [renderO]
      | gc :: g' =>
        show restoreAux mapping fuel ((gc :: g') ++ (p ++ renderS rest tail)) = _
        simp only [List.cons_append]
        match fuel, hlen with
        | f + 1, hlen =>
          have h0 := hseg 0 (by simp)
          simp only [List.drop_zero] at h0
          have hfind : findMatch mapping (gc :: (g' ++ (p ++ renderS rest tail))) =
              none := by simpa using h0
          simp only [restoreAux, hfind]
          have : restoreAux mapping f (renderS ((g', p, v) :: rest) tail) =
              renderO ((g', p, v) :: rest) tail := by
            refine ih f (by omega) ((g', p, v) :: rest) tail ?_ ?_
            · simp only [renderS, List.cons_append, List.length_cons,
                List.length_append] at hlen ⊢
              omega
            · refine ⟨?_, hins, hrest⟩
              intro n hn
              have := hseg (n + 1) (by simp; omega)
              simpa using this
          simp only [renderS, renderO] at this ⊢
          rw [this]
          simp

/-! ### Occurrence positions of a placeholder -/

/-- All start positions of `p` inside `s`. -/
def occList (p s : List Char) : List Nat :=
  (List.range (s.length + 1)).filter (occursAt p s)

/-- The number of occurrences of `p` inside `s`. -/
def occCount (p s : List Char) : Nat := (occList p s).length

theorem isPrefixOf_nil {p : List Char} (hp : p ≠ []) : p.isPrefixOf [] = false := by
  cases p with
  | nil => exact absurd rfl hp
  | cons a p => rfl

theorem occursAt_le {p s : List Char} {i : Nat} (hp : p ≠ [])
    (h : occursAt p s i = true) : i ≤ s.length := by
  by_contra hgt
  have hdrop : s.drop i = [] := List.drop_eq_nil_of_le (by omega)
  rw [occursAt, hdrop, isPrefixOf_nil hp] at h
  exact absurd h (by simp)

theorem occ_mem {p s : List Char} {i : Nat} (hp : p ≠ [])
    (h : occursAt p s i = true) : i ∈ occList p s := by
  simp only [occList, List.mem_filter, List.mem_range]
  exact ⟨by have := occursAt_le hp h; omega, h⟩

theorem occCount_unique {p s : List Char} {i j : Nat} (hc : occCount p s = 1)
    (hi : i ∈ occList p s) (hj : j ∈ occList p s) : i = j := by
  obtain ⟨x, hx⟩ := List.length_eq_one.mp hc
  rw [hx, List.mem_singleton] at hi hj
  rw [hi, hj]

theorem prefix_refl_append : ∀ (p b : List Char), p.isPrefixOf (p ++ b) = true
  | [], _ => by simp [List.isPrefixOf]
  | a :: p, b => by simp [List.isPrefixOf, prefix_refl_append p b]

theorem drop_add_append (done X : List Char) (n : Nat) :
    (done ++ X).drop (done.length + n) = X.drop n := by
  have h := List.drop_drop n done.length (done ++ X)
  rw [List.drop_left] at h
  exact h.symm

theorem find?_eq_some_of_unique {α : Type} {pred : α → Bool} :
    ∀ {l : List α} {e : α}, e ∈ l → pred e = true →
      (∀ x ∈ l, pred x = true → x = e) → l.find? pred = some e := by
  intro l
  induction l with
  | nil => intro e hmem; cases hmem
  | cons a l ih =>
    intro e hmem hpred huniq
    by_cases ha : pred a = true
    · rw [List.find?_cons_of_pos _ ha]
      rw [huniq a (List.mem_cons_self a l) ha]
    · rw [List.find?_cons_of_neg _ (by simpa using ha)]
      rcases List.mem_cons.mp hmem with rfl | hmem'
      · exact absurd hpred (by simpa using ha)
      · exact ih hmem' hpred (fun x hx => huniq x (List.mem_cons_of_mem a hx))

/-- Each part's placeholder occurs at its own insertion position. -/
def Aligned (s : List Char) : Nat → List (List Char × List Char × List Char) → Prop
  | _, [] => True
  | base, (g, p, _) :: rest =>
    occursAt p s (base + g.length) = true ∧ Aligned s (base + g.length + p.length) rest

theorem aligned_mem_occ {s : List Char} :
    ∀ {parts : List (List Char × List Char × List Char)} {base : Nat}
      {gpv : List Char × List Char × List Char},
      Aligned s base parts → gpv ∈ parts →
      ∃ j, occursAt gpv.2.1 s j = true ∧ base ≤ j
  | [], _, _, _, hmem => absurd hmem (by simp)
  | (g, p, v) :: rest, base, gpv, hal, hmem => by
    rcases List.mem_cons.mp hmem with rfl | hmem'
    · exact ⟨base + g.length, hal.1, by omega⟩
    · obtain ⟨j, hj, hbase⟩ := aligned_mem_occ hal.2 hmem'
      exact ⟨j, hj, by omega⟩

theorem aligned_of_render {s : List Char} :
    ∀ (parts : List (List Char × List Char × List Char)) (tail done : List Char),
      s = done ++ renderS parts tail → Aligned s done.length parts
  | [], _, _, _ => trivial
  | (g, p, v) :: rest, tail, done, heq => by
    constructor
    · rw [occursAt, heq, show renderS ((g, p, v) :: rest) tail =
        g ++ (p ++ renderS rest tail) from rfl]
      rw [drop_add_append]
      rw [List.drop_left]
      exact prefix_refl_append p _
    · have heq' : s = (done ++ g ++ p) ++ renderS rest tail := by
        rw [heq]
        simp [renderS]
      have := aligned_of_render rest tail (done ++ g ++ p) heq'
      simpa [List.length_append, Nat.add_assoc] using this

/-- If every mapping placeholder occurs exactly once in `s` — only at its
own insertion position — the restore scan finds exactly the intended
replacements. -/
theorem scanOk_of_unique (mapping : List (List Char × List Char)) (s : List Char)
    (hne : ∀ pv ∈ mapping, pv.1 ≠ [])
    (huniq : ∀ pv ∈ mapping, occCount pv.1 s = 1) :
    ∀ (parts : List (List Char × List Char × List Char)) (tail done : List Char),
      s = done ++ renderS parts tail →
      Aligned s done.length parts →
      (∀ gpv ∈ parts, ((gpv.2.1 : List Char), (gpv.2.2 : List Char)) ∈ mapping) →
      (∀ pv ∈ mapping,
        (∃ j, occursAt pv.1 s j = true ∧ j + pv.1.length ≤ done.length) ∨
        (∃ gpv ∈ parts, pv = (gpv.2.1, gpv.2.2))) →
      ScanOk mapping parts tail
  | [], tail, done, heq, _, _, hcover => by
    intro n hn
    by_contra hfind
    rcases hopt : findMatch mapping (tail.drop n) with _ | pv
    · exact hfind hopt
    · have hmem := List.mem_of_find?_eq_some hopt
      have hpred := List.find?_some hopt
      simp only [Bool.and_eq_true, Bool.not_eq_true'] at hpred
      have hpne : pv.1 ≠ [] := hne pv hmem
      have hocc : occursAt pv.1 s (done.length + n) = true := by
        rw [occursAt, heq, show renderS [] tail = tail from rfl, drop_add_append]
        exact hpred.2
      rcases hcover pv hmem with ⟨j, hj, hjle⟩ | ⟨gpv, hgpv, _⟩
      · have := occCount_unique (huniq pv hmem) (occ_mem hpne hocc) (occ_mem hpne hj)
        have hlen : pv.1.length ≠ 0 := by simpa using hpne
        omega
      · exact absurd hgpv (by simp)
  | (g, p, v) :: rest, tail, done, heq, hal, hparts, hcover => by
    have hpv_mem : (p, v) ∈ mapping :=
      hparts (g, p, v) (List.mem_cons_self _ _)
    have hp_ne : p ≠ [] := hne (p, v) hpv_mem
    have hp_len : p.length ≠ 0 := by simpa using hp_ne
    have hdrop_at : ∀ n, n ≤ g.length →
        s.drop (done.length + n) = g.drop n ++ (p ++ renderS rest tail) := by
      intro n hn
      rw [heq, show renderS ((g, p, v) :: rest) tail =
        g ++ (p ++ renderS rest tail) from rfl, drop_add_append,
        List.drop_append_of_le_length hn]
    refine ⟨?_, ?_, ?_⟩
    · intro n hn
      by_contra hfind
      rcases hopt : findMatch mapping (g.drop n ++ (p ++ renderS rest tail))
        with _ | pv
      · exact hfind hopt
      · have hmem := List.mem_of_find?_eq_some hopt
        have hpred := List.find?_some hopt
        simp only [Bool.and_eq_true, Bool.not_eq_true'] at hpred
        have hpne : pv.1 ≠ [] := hne pv hmem
        have hocc : occursAt pv.1 s (done.length + n) = true := by
          rw [occursAt, hdrop_at n (by omega)]
          exact hpred.2
        rcases hcover pv hmem with ⟨j, hj, hjle⟩ | ⟨gpv, hgpv, hpveq⟩
        · have := occCount_unique (huniq pv hmem) (occ_mem hpne hocc) (occ_mem hpne hj)
          have : pv.1.length ≠ 0 := by simpa using hpne
          omega
        · rcases List.mem_cons.mp hgpv with rfl | hgpv'
          · have hins := hal.1
            have := occCount_unique (huniq pv hmem) (occ_mem hpne hocc)
              (occ_mem hpne (by rw [hpveq]; exact hins))
            omega
          · obtain ⟨j, hj, hjge⟩ := aligned_mem_occ hal.2 hgpv'
            have := occCount_unique (huniq pv hmem) (occ_mem hpne hocc)
              (occ_mem hpne (by rw [hpveq]; exact hj))
            omega
    · have hsuffix : s.drop (done.length + g.length) = p ++ renderS rest tail := by
        rw [hdrop_at g.length (by omega)]
        simp
      refine find?_eq_some_of_unique hpv_mem ?_ ?_
      · simp only [Bool.and_eq_true, Bool.not_eq_true']
        exact ⟨by simpa using hp_ne, prefix_refl_append p _⟩
      · intro x hx hxpred
        simp only [Bool.and_eq_true, Bool.not_eq_true'] at hxpred
        have hxne : x.1 ≠ [] := hne x hx
        have hocc : occursAt x.1 s (done.length + g.length) = true := by
          rw [occursAt, hsuffix]
          exact hxpred.2
        rcases hcover x hx with ⟨j, hj, hjle⟩ | ⟨gpv, hgpv, hxeq⟩
        · have := occCount_unique (huniq x hx) (occ_mem hxne hocc) (occ_mem hxne hj)
          have : x.1.length ≠ 0 := by simpa using hxne
          omega
        · rcases List.mem_cons.mp hgpv with rfl | hgpv'
          · exact hxeq
          · obtain ⟨j, hj, hjge⟩ := aligned_mem_occ hal.2 hgpv'
            have := occCount_unique (huniq x hx) (occ_mem hxne hocc)
              (occ_mem hxne (by rw [hxeq]; exact hj))
            omega
    · refine scanOk_of_unique mapping s hne huniq rest tail (done ++ g ++ p) ?_ ?_ ?_ ?_
      · rw [heq]
        simp [renderS]
      · have := hal.2
        simpa [List.length_append, Nat.add_assoc] using this
      · exact fun gpv hgpv => hparts gpv (List.mem_cons_of_mem _ hgpv)
      · intro pv hpv
        rcases hcover pv hpv with ⟨j, hj, hjle⟩ | ⟨gpv, hgpv, hpveq⟩
        · refine Or.inl ⟨j, hj, ?_⟩
          simp only [List.length_append]
          omega
        · rcases List.mem_cons.mp hgpv with rfl | hgpv'
          · refine Or.inl ⟨done.length + g.length, by rw [hpveq]; exact hal.1, ?_⟩
            simp only [List.length_append, hpveq]
            omega
          · exact Or.inr ⟨gpv, hgpv', hpveq⟩

/-! ### The sanitized content as an interleaving of parts -/

def partsOfMatches (c : List Char) (kc : Nat) :
    Nat → List SecretMatch → List (List Char × List Char × List Char)
  | _, [] => []
  | prev, m :: rest =>
    ((c.drop prev).take (m.start - prev),
      mkPlaceholder m.secret_type (kc + rest.length), m.value) ::
      partsOfMatches c kc m.endPos rest

theorem sanit_render (c : List Char) (kc : Nat) :
    ∀ (asc : List SecretMatch) (prev : Nat),
      sanitOf c kc prev asc =
        renderS (partsOfMatches c kc prev asc) (c.drop (endOf prev asc))
  | [], prev => rfl
  | m :: rest, prev => by
    simp only [sanitOf, partsOfMatches, renderS, endOf,
      sanit_render c kc rest m.endPos, List.append_assoc]

theorem take_drop_glue {c : List Char} {s e : Nat} (hse : s ≤ e) :
    (c.drop s).take (e - s) ++ c.drop e = c.drop s := by
  have h : (c.drop s).drop (e - s) = c.drop e := by
    rw [List.drop_drop]
    congr 1
    omega
  conv_rhs => rw [← List.take_append_drop (e - s) (c.drop s)]
  rw [h]

theorem renderO_parts (c : List Char) (kc : Nat) :
    ∀ (asc : List SecretMatch) (prev : Nat), Chained c prev asc →
      renderO (partsOfMatches c kc prev asc) (c.drop (endOf prev asc)) = c.drop prev
  | [], prev, _ => rfl
  | m :: rest, prev, hch => by
    obtain ⟨h1, h2, h3, h4, h5⟩ := hch
    simp only [partsOfMatches, renderO, endOf]
    rw [renderO_parts c kc rest m.endPos h5]
    rw [h4, slice]
    rw [take_drop_glue (le_of_lt h2), take_drop_glue h1]

theorem pairs_parts_map (c : List Char) (kc : Nat) :
    ∀ (asc : List SecretMatch) (prev : Nat),
      pairsOf kc asc =
        (partsOfMatches c kc prev asc).map (fun gpv => (gpv.2.1, gpv.2.2))
  | [], _ => rfl
  | m :: rest, prev => by
    simp only [pairsOf, partsOfMatches, List.map_cons]
    rw [pairs_parts_map c kc rest m.endPos]

theorem pairs_nonempty (kc : Nat) :
    ∀ (asc : List SecretMatch), ∀ pv ∈ pairsOf kc asc, pv.1 ≠ []
  | [], pv, hpv => absurd hpv (by simp [pairsOf])
  | m :: rest, pv, hpv => by
    rcases List.mem_cons.mp hpv with rfl | hpv'
    · simp [mkPlaceholder]
    · exact pairs_nonempty kc rest pv hpv'

/-- The claim's collision hypothesis: each produced placeholder occurs in
the sanitized content exactly once (only at its own insertion point). -/
def CollisionFree (c : List Char) (ms : List SecretMatch) : Prop :=
  ∀ pv ∈ (redact c ms).2, occCount pv.1 (redact c ms).1 = 1

instance (c : List Char) (ms : List SecretMatch) : Decidable (CollisionFree c ms) :=
  inferInstanceAs (Decidable (∀ pv ∈ (redact c ms).2, occCount pv.1 (redact c ms).1 = 1))

/-- C4: for every content and every valid set of confirmed matches whose
placeholders do not collide with the content, `restore` applied to the
sanitized content and mapping produced by `redact` returns exactly the
original content. -/
theorem c4_redact_restore_roundtrip (c : List Char) (ms : List SecretMatch)
    (hv : ValidMatches c ms) (hcf : CollisionFree c ms) :
    restore (redact c ms).1 (redact c ms).2 = c := by
  have hch : Chained c 0 ((sortDesc ms).reverse) := chained_of_valid hv
  have hred : redact c ms = (sanitOf c 0 0 ((sortDesc ms).reverse),
      (pairsOf 0 ((sortDesc ms).reverse)).reverse) := by
    have h := redactLoop_decomp ((sortDesc ms).reverse) c 0 hch
    rw [List.reverse_reverse] at h
    exact h
  have hs : sanitOf c 0 0 ((sortDesc ms).reverse) =
      renderS (partsOfMatches c 0 0 ((sortDesc ms).reverse))
        (c.drop (endOf 0 ((sortDesc ms).reverse))) :=
    sanit_render c 0 ((sortDesc ms).reverse) 0
  have hmapne : ∀ pv ∈ (pairsOf 0 ((sortDesc ms).reverse)).reverse, pv.1 ≠ [] := by
    intro pv hpv
    exact pairs_nonempty 0 ((sortDesc ms).reverse) pv (List.mem_reverse.mp hpv)
  have hE6 : ∀ pv ∈ (pairsOf 0 ((sortDesc ms).reverse)).reverse,
      occCount pv.1 (sanitOf c 0 0 ((sortDesc ms).reverse)) = 1 := by
    intro pv hpv
    have := hcf pv (by rw [hred]; exact hpv)
    rwa [hred] at this
  have hmap := pairs_parts_map c 0 ((sortDesc ms).reverse) 0
  have hE4 : ∀ gpv ∈ partsOfMatches c 0 0 ((sortDesc ms).reverse),
      ((gpv.2.1 : List Char), (gpv.2.2 : List Char)) ∈
        (pairsOf 0 ((sortDesc ms).reverse)).reverse := by
    intro gpv hgpv
    rw [List.mem_reverse, hmap]
    exact List.mem_map.mpr ⟨gpv, hgpv, rfl⟩
  have hE5 : ∀ pv ∈ (pairsOf 0 ((sortDesc ms).reverse)).reverse,
      (∃ j, occursAt pv.1 (sanitOf c 0 0 ((sortDesc ms).reverse)) j = true ∧
        j + pv.1.length ≤ ([] : List Char).length) ∨
      (∃ gpv ∈ partsOfMatches c 0 0 ((sortDesc ms).reverse),
        pv = (gpv.2.1, gpv.2.2)) := by
    intro pv hpv
    rw [List.mem_reverse, hmap] at hpv
    obtain ⟨gpv, hgpv, heq⟩ := List.mem_map.mp hpv
    exact Or.inr ⟨gpv, hgpv, heq.symm⟩
  have hE6' : ∀ pv ∈ (pairsOf 0 ((sortDesc ms).reverse)).reverse,
      occCount pv.1 (sanitOf c 0 0 ((sortDesc ms).reverse)) = 1 := hE6
  have hscan : ScanOk (pairsOf 0 ((sortDesc ms).reverse)).reverse
      (partsOfMatches c 0 0 ((sortDesc ms).reverse))
      (c.drop (endOf 0 ((sortDesc ms).reverse))) := by
    refine scanOk_of_unique _ _ hmapne hE6' _ _ [] (by simpa using hs) ?_ hE4 hE5
    have := @aligned_of_render (sanitOf c 0 0 ((sortDesc ms).reverse))
      (partsOfMatches c 0 0 ((sortDesc ms).reverse))
      (c.drop (endOf 0 ((sortDesc ms).reverse))) [] (by simpa using hs)
    simpa using this
  rw [hred]
  show restore (sanitOf c 0 0 ((sortDesc ms).reverse))
      (pairsOf 0 ((sortDesc ms).reverse)).reverse = c
  rw [restore, hs]
  rw [restoreAux_scan _ _ _ _ (le_refl _) hscan]
  have := renderO_parts c 0 ((sortDesc ms).reverse) 0 hch
  rw [this]
  simp

/-- Witness for C4: the repeated-secret content round-trips. -/
theorem c4_redact_restore_roundtrip_witness :
    restore (redact wRepContent [wRep, wRep2]).1 (redact wRepContent [wRep, wRep2]).2 =
      wRepContent :=
  c4_redact_restore_roundtrip wRepContent [wRep, wRep2]
    (by constructor
        · decide
        · decide)
    (by decide)

/-! ## Claim C1: which serialized commitment fields can contain the raw
value -/

theorem mem_of_isPrefixOf :
    ∀ {p t : List Char}, p.isPrefixOf t = true → ∀ ch ∈ p, ch ∈ t
  | [], _, _, _, hch => absurd hch (by simp)
  | a :: p, [], h, _, _ => by simp [List.isPrefixOf] at h
  | a :: p, b :: t, h, ch, hch => by
    simp only [List.isPrefixOf, Bool.and_eq_true, beq_iff_eq] at h
    obtain ⟨rfl, h2⟩ := h
    rcases List.mem_cons.mp hch with rfl | hch'
    · exact List.mem_cons_self _ _
    · exact List.mem_cons_of_mem _ (mem_of_isPrefixOf h2 ch hch')

theorem isPrefixOf_length_le :
    ∀ {p t : List Char}, p.isPrefixOf t = true → p.length ≤ t.length
  | [], _, _ => Nat.zero_le _
  | a :: p, [], h => by simp [List.isPrefixOf] at h
  | a :: p, b :: t, h => by
    simp only [List.isPrefixOf, Bool.and_eq_true] at h
    simpa using isPrefixOf_length_le h.2

theorem isPrefixOf_take_eq :
    ∀ {p t : List Char}, p.isPrefixOf t = true → t.take p.length = p
  | [], _, _ => rfl
  | a :: p, [], h => by simp [List.isPrefixOf] at h
  | a :: p, b :: t, h => by
    simp only [List.isPrefixOf, Bool.and_eq_true, beq_iff_eq] at h
    obtain ⟨rfl, h2⟩ := h
    simp [isPrefixOf_take_eq h2]

theorem containsSub_elim {v f : List Char} (h : containsSub v f = true) :
    ∃ i, i ≤ f.length ∧ v.isPrefixOf (f.drop i) = true := by
  simp only [containsSub, List.any_eq_true, List.mem_range] at h
  obtain ⟨i, hi, hocc⟩ := h
  exact ⟨i, by omega, hocc⟩

theorem mem_of_containsSub {v f : List Char} (h : containsSub v f = true) :
    ∀ ch ∈ v, ch ∈ f := by
  obtain ⟨i, _, hp⟩ := containsSub_elim h
  intro ch hch
  exact List.mem_of_mem_drop (mem_of_isPrefixOf hp ch hch)

theorem length_le_of_containsSub {v f : List Char} (h : containsSub v f = true) :
    v.length ≤ f.length := by
  obtain ⟨i, _, hp⟩ := containsSub_elim h
  have := isPrefixOf_length_le hp
  simp only [List.length_drop] at this
  omega

theorem eq_of_containsSub_length {v f : List Char} (h : containsSub v f = true)
    (hlen : f.length ≤ v.length) : v = f := by
  obtain ⟨i, hi, hp⟩ := containsSub_elim h
  have hle := isPrefixOf_length_le hp
  simp only [List.length_drop] at hle
  have hi0 : i = 0 := by omega
  subst hi0
  simp only [List.drop_zero] at hp
  have := isPrefixOf_take_eq hp
  rw [List.take_of_length_le (by omega)] at this
  exact this.symm

/-- Substring refutation by a character class: a character of `v` outside
the class of every character of `f` rules out containment. -/
theorem contains_false_of_badChar {P : Char → Bool} {v f : List Char} {ch : Char}
    (hch : ch ∈ v) (hbad : P ch = false) (hsafe : ∀ a ∈ f, P a = true) :
    containsSub v f = false := by
  by_contra h
  have h' : containsSub v f = true := by
    cases hcase : containsSub v f
    · exact absurd hcase h
    · rfl
  have := hsafe ch (mem_of_containsSub h' ch hch)
  rw [hbad] at this
  exact absurd this (by simp)

theorem contains_false_of_short {v f : List Char} (hlen : f.length < v.length) :
    containsSub v f = false := by
  by_contra h
  have h' : containsSub v f = true := by
    cases hcase : containsSub v f
    · exact absurd hcase h
    · rfl
  have := length_le_of_containsSub h'
  omega

/-- Lowercase hex digits. -/
def hexChar (ch : Char) : Bool :=
  ch.isDigit || (decide ('a' ≤ ch) && decide (ch ≤ 'f'))

/-- Characters of an ISO-8601 UTC timestamp. -/
def tsChar (ch : Char) : Bool :=
  ch.isDigit || ch == '-' || ch == ':' || ch == 'T' || ch == 'Z'

/-- Characters that can appear in any serialized commitment field other
than the variable name: digits, uppercase letters, lowercase hex and the
fixed punctuation of the formats. -/
def fieldSafeChar (ch : Char) : Bool :=
  ch.isDigit || ch.isUpper || (decide ('a' ≤ ch) && decide (ch ≤ 'f')) ||
    ch == '<' || ch == '>' || ch == '_' || ch == '-' || ch == ':'

theorem hexChar_safe {ch : Char} (h : hexChar ch = true) : fieldSafeChar ch = true := by
  simp only [hexChar, Bool.or_eq_true] at h
  simp only [fieldSafeChar, Bool.or_eq_true]
  tauto

theorem tsChar_safe {ch : Char} (h : tsChar ch = true) : fieldSafeChar ch = true := by
  by_cases hd : ch.isDigit = true
  · simp [fieldSafeChar, hd]
  · have hch : ch = '-' ∨ ch = ':' ∨ ch = 'T' ∨ ch = 'Z' := by
      simp only [tsChar, Bool.or_eq_true, beq_iff_eq] at h
      tauto
    rcases hch with h | h | h | h <;> subst h <;> decide

theorem digit_safe {ch : Char} (h : ch.isDigit = true) : fieldSafeChar ch = true := by
  simp only [fieldSafeChar, Bool.or_eq_true]
  tauto

theorem take_mem {v lit : List Char} {n : Nat} (h : v.take n = lit) :
    ∀ ch ∈ lit, ch ∈ v := by
  intro ch hch
  rw [← h] at hch
  exact List.take_subset n v hch

theorem dbMatch_proto_mem {proto : List Char} {tail : List Char → Bool}
    {v : List Char} (h : dbMatch proto tail v = true) : ∀ ch ∈ proto, ch ∈ v := by
  simp only [dbMatch, List.any_eq_true, List.mem_range, Bool.and_eq_true] at h
  obtain ⟨i, _, hp, _⟩ := h
  intro ch hch
  exact List.mem_of_mem_drop (mem_of_isPrefixOf hp ch hch)

theorem splitOnChar_ne_nil (sep : Char) : ∀ s : List Char, splitOnChar sep s ≠ []
  | [] => by simp [splitOnChar]
  | c :: rest => by
    rcases h : splitOnChar sep rest with _ | ⟨g, gs⟩
    · simp [splitOnChar, h]
    · by_cases hc : c = sep
      · simp [splitOnChar, h, hc]
      · simp [splitOnChar, h, hc]

theorem splitOnChar_sep_mem (sep : Char) :
    ∀ {s : List Char}, 2 ≤ (splitOnChar sep s).length → sep ∈ s
  | [], h => by simp [splitOnChar] at h
  | c :: rest, h => by
    by_cases hc : c = sep
    · rw [← hc]
      exact List.mem_cons_self _ _
    · rcases hs : splitOnChar sep rest with _ | ⟨g, gs⟩
      · exact absurd hs (splitOnChar_ne_nil sep rest)
      · have hsplit : splitOnChar sep (c :: rest) = (c :: g) :: gs := by
          simp only [splitOnChar, hs]
          rw [if_neg (by simpa using hc)]
        rw [hsplit] at h
        simp only [List.length_cons] at h
        have hrec : 2 ≤ (splitOnChar sep rest).length := by
          rw [hs]
          simp only [List.length_cons]
          omega
        exact List.mem_cons_of_mem _ (splitOnChar_sep_mem sep hrec)

/-! ### Facts extracted from each pattern -/

theorem take_eq_length {v lit : List Char} {n : Nat} (h : v.take n = lit)
    (hn : lit.length = n) : n ≤ v.length := by
  have := congrArg List.length h
  simp only [List.length_take] at this
  omega

theorem matchOPENAI_facts {v : List Char} (h : matchOPENAI v = true) :
    's' ∈ v ∧ 43 ≤ v.length := by
  simp only [matchOPENAI, Bool.and_eq_true, beq_iff_eq, decide_eq_true_eq] at h
  obtain ⟨⟨ht, hlen⟩, _⟩ := h
  refine ⟨take_mem ht 's' (by decide), ?_⟩
  simp only [List.length_drop] at hlen
  have := take_eq_length ht (by decide)
  omega

theorem matchANTHROPIC_facts {v : List Char} (h : matchANTHROPIC v = true) :
    's' ∈ v ∧ 102 ≤ v.length := by
  simp only [matchANTHROPIC, Bool.and_eq_true, beq_iff_eq, decide_eq_true_eq] at h
  obtain ⟨⟨ht, hlen⟩, _⟩ := h
  refine ⟨take_mem ht 's' (by decide), ?_⟩
  simp only [List.length_drop] at hlen
  have := take_eq_length ht (by decide)
  omega

theorem matchGITHUB_facts {v : List Char} (h : matchGITHUB v = true) :
    'g' ∈ v ∧ 40 ≤ v.length := by
  simp only [matchGITHUB, Bool.or_eq_true, Bool.and_eq_true, beq_iff_eq] at h
  rcases h with ⟨⟨ht, hlen⟩, _⟩ | ⟨⟨ht, hlen⟩, _⟩
  · exact ⟨take_mem ht 'g' (by decide), by omega⟩
  · exact ⟨take_mem ht 'g' (by decide), by omega⟩

theorem matchAWS_ACCESS_facts {v : List Char} (h : matchAWS_ACCESS v = true) :
    v.take 4 = litAKIA ∧ v.length = 20 ∧ 'A' ∈ v ∧ 'K' ∈ v := by
  simp only [matchAWS_ACCESS, Bool.and_eq_true, beq_iff_eq] at h
  obtain ⟨⟨ht, hlen⟩, _⟩ := h
  exact ⟨ht, hlen, take_mem ht 'A' (by decide), take_mem ht 'K' (by decide)⟩

theorem matchAWS_SECRET_facts {v : List Char} (h : matchAWS_SECRET v = true) :
    v.length = 40 := by
  simp only [matchAWS_SECRET, Bool.and_eq_true, beq_iff_eq] at h
  exact h.1

theorem matchSLACK_facts {v : List Char} (h : matchSLACK v = true) : 'x' ∈ v := by
  simp only [matchSLACK, Bool.and_eq_true, beq_iff_eq] at h
  exact take_mem h.1 'x' (by decide)

theorem matchPOSTGRES_facts {v : List Char} (h : matchPOSTGRES v = true) : 'p' ∈ v :=
  dbMatch_proto_mem h 'p' (by decide)

theorem matchMYSQL_facts {v : List Char} (h : matchMYSQL v = true) : 'q' ∈ v :=
  dbMatch_proto_mem h 'q' (by decide)

theorem matchMONGODB_facts {v : List Char} (h : matchMONGODB v = true) : 'm' ∈ v :=
  dbMatch_proto_mem h 'm' (by decide)

theorem matchREDIS_facts {v : List Char} (h : matchREDIS v = true) : 'r' ∈ v :=
  dbMatch_proto_mem h 'r' (by decide)

theorem matchJWT_facts {v : List Char} (h : matchJWT v = true) : '.' ∈ v := by
  apply splitOnChar_sep_mem '.'
  by_contra hne
  have hfalse : matchJWT v = false := by
    unfold matchJWT
    rcases hsp : splitOnChar '.' v with _ | ⟨p1, _ | ⟨p2, _ | ⟨p3, _ | ⟨p4, r⟩⟩⟩⟩
    · rfl
    · rfl
    · rfl
    · exfalso
      apply hne
      rw [hsp]
      simp
    · rfl
  rw [hfalse] at h
  exact absurd h (by simp)

theorem matchGENERIC_facts {v : List Char} (h : matchGENERIC v = true) :
    32 ≤ v.length ∧ v.all genChar = true := by
  simp only [matchGENERIC, Bool.and_eq_true, decide_eq_true_eq] at h
  exact h

/-- Inversion of the detection chain. -/
theorem detect_cases {v t : List Char} (h : detect_secret_type v = some t) :
    (matchOPENAI v = true ∧ t = tOPENAI) ∨
    (matchANTHROPIC v = true ∧ t = tANTHROPIC) ∨
    (matchGITHUB v = true ∧ t = tGITHUB) ∨
    (matchAWS_ACCESS v = true ∧ t = tAWS_ACCESS) ∨
    (matchAWS_SECRET v = true ∧ t = tAWS_SECRET) ∨
    (matchSLACK v = true ∧ t = tSLACK) ∨
    (matchPOSTGRES v = true ∧ t = tPOSTGRES) ∨
    (matchMYSQL v = true ∧ t = tMYSQL) ∨
    (matchMONGODB v = true ∧ t = tMONGODB) ∨
    (matchREDIS v = true ∧ t = tREDIS) ∨
    (matchJWT v = true ∧ t = tJWT) ∨
    (matchGENERIC v = true ∧ t = tGENERIC) := by
  rw [detect_eq_find] at h
  rcases Option.map_eq_some'.mp h with ⟨mp, hfind, hfst⟩
  have hpred := List.find?_some hfind
  have hmem := List.mem_of_find?_eq_some hfind
  simp only [patternTable, List.mem_cons, List.not_mem_nil, or_false] at hmem
  rcases hmem with rfl | rfl | rfl | rfl | rfl | rfl | rfl | rfl | rfl | rfl | rfl | rfl
  · exact Or.inl ⟨hpred, hfst.symm⟩
  · exact Or.inr (Or.inl ⟨hpred, hfst.symm⟩)
  · exact Or.inr (Or.inr (Or.inl ⟨hpred, hfst.symm⟩))
  · exact Or.inr (Or.inr (Or.inr (Or.inl ⟨hpred, hfst.symm⟩)))
  · exact Or.inr (Or.inr (Or.inr (Or.inr (Or.inl ⟨hpred, hfst.symm⟩))))
  · exact Or.inr (Or.inr (Or.inr (Or.inr (Or.inr (Or.inl ⟨hpred, hfst.symm⟩)))))
  · exact Or.inr (Or.inr (Or.inr (Or.inr (Or.inr (Or.inr (Or.inl
      ⟨hpred, hfst.symm⟩))))))
  · exact Or.inr (Or.inr (Or.inr (Or.inr (Or.inr (Or.inr (Or.inr (Or.inl
      ⟨hpred, hfst.symm⟩)))))))
  · exact Or.inr (Or.inr (Or.inr (Or.inr (Or.inr (Or.inr (Or.inr (Or.inr (Or.inl
      ⟨hpred, hfst.symm⟩))))))))
  · exact Or.inr (Or.inr (Or.inr (Or.inr (Or.inr (Or.inr (Or.inr (Or.inr (Or.inr
      (Or.inl ⟨hpred, hfst.symm⟩)))))))))
  · exact Or.inr (Or.inr (Or.inr (Or.inr (Or.inr (Or.inr (Or.inr (Or.inr (Or.inr
      (Or.inr (Or.inl ⟨hpred, hfst.symm⟩))))))))))
  · exact Or.inr (Or.inr (Or.inr (Or.inr (Or.inr (Or.inr (Or.inr (Or.inr (Or.inr
      (Or.inr (Or.inr ⟨hpred, hfst.symm⟩))))))))))

/-! ### The amended non-reversibility statement -/

theorem commitmentFields_eq (hash : List Char → List Char)
    (name v t iso epoch pid : List Char) :
    commitmentFields (create_commitment hash name v t iso epoch pid) =
      [(hash (name ++ ':' :: (hash v ++ ':' :: (epoch ++ ':' :: pid)))).take 16,
       name, hash v, t,
       litMaskedOpen ++ t ++ '_' :: ((hash v).take 8 ++ ['>']),
       iso, pid, pid] := rfl

theorem masked_safe {hash : List Char → List Char} {v t : List Char}
    (hashHex : ∀ s, ∀ a ∈ hash s, hexChar a = true)
    (htype : ∀ a ∈ t, fieldSafeChar a = true) :
    ∀ a ∈ litMaskedOpen ++ t ++ '_' :: ((hash v).take 8 ++ ['>']),
      fieldSafeChar a = true := by
  intro a ha
  rcases List.mem_append.mp ha with ha | ha
  · rcases List.mem_append.mp ha with ha | ha
    · have hopen : ∀ b ∈ litMaskedOpen, fieldSafeChar b = true := by decide
      exact hopen a ha
    · exact htype a ha
  · rcases List.mem_cons.mp ha with rfl | ha
    · decide
    · rcases List.mem_append.mp ha with ha | ha
      · exact hexChar_safe (hashHex v a (List.take_subset _ _ ha))
      · have : a = '>' := List.mem_singleton.mp ha
        subst this
        decide

theorem fields_false_of_bad {hash : List Char → List Char}
    {v t name iso epoch pid : List Char} {ch : Char}
    (hashHex : ∀ s, ∀ a ∈ hash s, hexChar a = true)
    (hisoChars : ∀ a ∈ iso, tsChar a = true)
    (hpidChars : ∀ a ∈ pid, a.isDigit = true)
    (htype : ∀ a ∈ t, fieldSafeChar a = true)
    (hname : containsSub v name = false)
    (hch : ch ∈ v) (hbad : fieldSafeChar ch = false) :
    ∀ f ∈ commitmentFields (create_commitment hash name v t iso epoch pid),
      containsSub v f = false := by
  intro f hf
  rw [commitmentFields_eq] at hf
  simp only [List.mem_cons, List.not_mem_nil, or_false] at hf
  rcases hf with rfl | rfl | rfl | rfl | rfl | rfl | rfl | rfl
  · exact contains_false_of_badChar hch hbad
      (fun a ha => hexChar_safe (hashHex _ a (List.take_subset _ _ ha)))
  · exact hname
  · exact contains_false_of_badChar hch hbad
      (fun a ha => hexChar_safe (hashHex v a ha))
  · exact contains_false_of_badChar hch hbad htype
  · exact contains_false_of_badChar hch hbad (masked_safe hashHex htype)
  · exact contains_false_of_badChar hch hbad (fun a ha => tsChar_safe (hisoChars a ha))
  · exact contains_false_of_badChar hch hbad (fun a ha => digit_safe (hpidChars a ha))
  · exact contains_false_of_badChar hch hbad (fun a ha => digit_safe (hpidChars a ha))

theorem bool_true_of_not_false {b : Bool} (h : ¬b = false) : b = true := by
  cases b
  · exact absurd rfl h
  · rfl

theorem masked_length {hash : List Char → List Char} {v : List Char}
    (t : List Char) (hlen64 : (hash v).length = 64) :
    (litMaskedOpen ++ t ++ '_' :: ((hash v).take 8 ++ ['>'])).length =
      t.length + 18 := by
  have h8 : litMaskedOpen.length = 8 := by decide
  simp only [List.length_append, List.length_cons, List.length_take, hlen64, h8,
    List.length_nil]
  omega

theorem akia_not_in_masked {hash : List Char → List Char} {v : List Char}
    (hlen64 : (hash v).length = 64)
    (hv4 : v.take 4 = litAKIA) (hv20 : v.length = 20) :
    containsSub v
      (litMaskedOpen ++ tAWS_ACCESS ++ '_' :: ((hash v).take 8 ++ ['>'])) = false := by
  by_contra hcon
  have hc := bool_true_of_not_false hcon
  obtain ⟨i, hi, hp⟩ := containsSub_elim hc
  have hmasked : litMaskedOpen ++ tAWS_ACCESS ++ '_' :: ((hash v).take 8 ++ ['>']) =
      (litMaskedOpen ++ tAWS_ACCESS ++ ['_']) ++ ((hash v).take 8 ++ ['>']) := by
    simp
  have hple := isPrefixOf_length_le hp
  have hmlen := masked_length tAWS_ACCESS hlen64
  simp only [List.length_drop, hmlen, hv20] at hple
  have hts : tAWS_ACCESS.length = 14 := by decide
  rw [hts] at hple
  have hi12 : i ≤ 12 := by omega
  have htake := isPrefixOf_take_eq hp
  have htake4 : (((litMaskedOpen ++ tAWS_ACCESS ++ '_' ::
      ((hash v).take 8 ++ ['>'])).drop i).take v.length).take 4 = v.take 4 := by
    rw [htake]
  rw [hv20, List.take_take] at htake4
  have hmin : min 4 20 = 4 := by decide
  rw [hmin, hv4] at htake4
  rw [hmasked] at htake4
  have hpre : (litMaskedOpen ++ tAWS_ACCESS ++ ['_']).length = 23 := by decide
  rw [List.drop_append_of_le_length (by omega)] at htake4
  rw [List.take_append_of_le_length (by rw [List.length_drop, hpre]; omega)]
    at htake4
  have hnone : ∀ j < 13,
      ¬(((litMaskedOpen ++ tAWS_ACCESS ++ ['_']).drop j).take 4 = litAKIA) := by
    decide
  exact hnone i (by omega) htake4

/-- C1, amended: for every value in which `detect_secret_type` finds a
secret pattern, no field of the serialized commitment other than the
variable name can contain the raw value — and the variable-name field
also cannot whenever the name does not contain the value.  Commitments
created through the `is_sensitive_env_var` route are excluded: for those
the property fails — a value such as `ENV` is a substring of the fixed
`SENSITIVE_ENV_VAR` text in two fields.  The hypotheses say the
digest function produces 64 lowercase-hex characters and is one-way on
`v` (its digest does not contain `v`), and that the timestamp and
process id have their usual shapes. -/
theorem c1_amended_no_field_contains_raw (hash : List Char → List Char)
    (v t name iso epoch pid : List Char)
    (hdet : detect_secret_type v = some t)
    (hashHex : ∀ s, ∀ a ∈ hash s, hexChar a = true)
    (hashLen : ∀ s, (hash s).length = 64)
    (how1 : containsSub v (hash v) = false)
    (hname : containsSub v name = false)
    (hisoLen : iso.length = 20)
    (hisoChars : ∀ a ∈ iso, tsChar a = true)
    (hpidLen : pid.length ≤ 10)
    (hpidChars : ∀ a ∈ pid, a.isDigit = true) :
    ∀ f ∈ commitmentFields (create_commitment hash name v t iso epoch pid),
      containsSub v f = false := by
  rcases detect_cases hdet with ⟨hm, rfl⟩ | ⟨hm, rfl⟩ | ⟨hm, rfl⟩ | ⟨hm, rfl⟩ |
    ⟨hm, rfl⟩ | ⟨hm, rfl⟩ | ⟨hm, rfl⟩ | ⟨hm, rfl⟩ | ⟨hm, rfl⟩ | ⟨hm, rfl⟩ |
    ⟨hm, rfl⟩ | ⟨hm, rfl⟩
  · exact fields_false_of_bad hashHex hisoChars hpidChars (by decide) hname
      (matchOPENAI_facts hm).1 (by decide)
  · exact fields_false_of_bad hashHex hisoChars hpidChars (by decide) hname
      (matchANTHROPIC_facts hm).1 (by decide)
  · exact fields_false_of_bad hashHex hisoChars hpidChars (by decide) hname
      (matchGITHUB_facts hm).1 (by decide)
  · -- AWS access keys: `AKIA` + 16 chars of `[0-9A-Z]`
    obtain ⟨hv4, hv20, hA, hK⟩ := matchAWS_ACCESS_facts hm
    intro f hf
    rw [commitmentFields_eq] at hf
    simp only [List.mem_cons, List.not_mem_nil, or_false] at hf
    rcases hf with rfl | rfl | rfl | rfl | rfl | rfl | rfl | rfl
    · exact contains_false_of_badChar hA (show hexChar 'A' = false by decide)
        (fun a ha => hashHex _ a (List.take_subset _ _ ha))
    · exact hname
    · exact contains_false_of_badChar hA (show hexChar 'A' = false by decide)
        (hashHex v)
    · apply contains_false_of_short
      rw [hv20]
      decide
    · exact akia_not_in_masked (hashLen v) hv4 hv20
    · exact contains_false_of_badChar hK (show tsChar 'K' = false by decide) hisoChars
    · exact contains_false_of_badChar hK (show Char.isDigit 'K' = false by decide)
        hpidChars
    · exact contains_false_of_badChar hK (show Char.isDigit 'K' = false by decide)
        hpidChars
  · -- AWS secret keys: exactly 40 characters
    have hv40 := matchAWS_SECRET_facts hm
    intro f hf
    rw [commitmentFields_eq] at hf
    simp only [List.mem_cons, List.not_mem_nil, or_false] at hf
    rcases hf with rfl | rfl | rfl | rfl | rfl | rfl | rfl | rfl
    · apply contains_false_of_short
      have := List.length_take_le 16
        (hash (name ++ ':' :: (hash v ++ ':' :: (epoch ++ ':' :: pid))))
      omega
    · exact hname
    · exact how1
    · apply contains_false_of_short
      rw [hv40]
      decide
    · apply contains_false_of_short
      rw [masked_length tAWS_SECRET (hashLen v), hv40]
      decide
    · apply contains_false_of_short
      omega
    · apply contains_false_of_short
      omega
    · apply contains_false_of_short
      omega
  · exact fields_false_of_bad hashHex hisoChars hpidChars (by decide) hname
      (matchSLACK_facts hm) (by decide)
  · exact fields_false_of_bad hashHex hisoChars hpidChars (by decide) hname
      (matchPOSTGRES_facts hm) (by decide)
  · exact fields_false_of_bad hashHex hisoChars hpidChars (by decide) hname
      (matchMYSQL_facts hm) (by decide)
  · exact fields_false_of_bad hashHex hisoChars hpidChars (by decide) hname
      (matchMONGODB_facts hm) (by decide)
  · exact fields_false_of_bad hashHex hisoChars hpidChars (by decide) hname
      (matchREDIS_facts hm) (by decide)
  · exact fields_false_of_bad hashHex hisoChars hpidChars (by decide) hname
      (matchJWT_facts hm) (by decide)
  · -- generic secrets: at least 32 characters of `[A-Za-z0-9+/=_-]`
    obtain ⟨hv32, hall⟩ := matchGENERIC_facts hm
    intro f hf
    rw [commitmentFields_eq] at hf
    simp only [List.mem_cons, List.not_mem_nil, or_false] at hf
    rcases hf with rfl | rfl | rfl | rfl | rfl | rfl | rfl | rfl
    · apply contains_false_of_short
      have := List.length_take_le 16
        (hash (name ++ ':' :: (hash v ++ ':' :: (epoch ++ ':' :: pid))))
      omega
    · exact hname
    · exact how1
    · apply contains_false_of_short
      have : tGENERIC.length = 14 := by decide
      omega
    · by_contra hcon
      have hc := bool_true_of_not_false hcon
      have hle := length_le_of_containsSub hc
      rw [masked_length tGENERIC (hashLen v)] at hle
      have h14 : tGENERIC.length = 14 := by decide
      rw [h14] at hle
      have heq := eq_of_containsSub_length hc
        (by rw [masked_length tGENERIC (hashLen v), h14]; omega)
      have hmem : '<' ∈ v := by
        rw [heq]
        exact List.mem_append.mpr (Or.inl (List.mem_append.mpr (Or.inl (by decide))))
      have := List.all_eq_true.mp hall _ hmem
      exact absurd this (by decide)
    · apply contains_false_of_short
      omega
    · apply contains_false_of_short
      omega
    · apply contains_false_of_short
      omega

def wOpenaiVal : List Char := 's' :: 'k' :: '-' :: List.replicate 40 'a'

theorem cxHash_hex : ∀ s, ∀ a ∈ cxHash s, hexChar a = true := by
  intro s a ha
  have h := List.eq_of_mem_replicate ha
  subst h
  decide

theorem cxHash_len : ∀ s, (cxHash s).length = 64 := by
  intro s
  simp [cxHash]

/-- Witness for the amended C1 at a concrete OpenAI-shaped secret: the
masked placeholder field does not contain the raw value. -/
theorem c1_amended_no_field_contains_raw_witness :
    containsSub wOpenaiVal
      (create_commitment cxHash wVarName wOpenaiVal tOPENAI wIso wEpoch
        wPid).masked_value = false :=
  c1_amended_no_field_contains_raw cxHash wOpenaiVal tOPENAI wVarName wIso wEpoch
    wPid (by decide) cxHash_hex cxHash_len (by decide) (by decide) (by decide)
    (by decide) (by decide) (by decide)
    (create_commitment cxHash wVarName wOpenaiVal tOPENAI wIso wEpoch
      wPid).masked_value
    (by decide)

end ZeroTrust
